import Mathlib

/-!
A shallow embedding of the IGC `ScalarizeFunction` pass
(IGC/Compiler/Optimizer/Scalarizer.cpp) and proofs about it.

The pass rewrites vector-typed LLVM instructions into per-lane scalar
instructions.  We model LLVM values, instructions and the per-function
pass state (Scalar Conversion Map, Deferred Resolution List, used-whole
set, removed set) and translate each C++ routine of the pass into an
executable Lean function over that state.  Instruction identity
(pointer identity in C++) is modelled by natural-number ids; freshly
created instructions draw ids from a counter.
-/

set_option maxRecDepth 4000

namespace Scalarizer

/-- LLVM types, as far as the pass inspects them: scalars (with an opaque
element kind), vectors (element kind and width), pointers (to an element
kind; used for the dummy-load placeholders), void and anything else. -/
inductive Typ where
  | scalar (k : Nat)
  | vector (k : Nat) (w : Nat)
  | pointerTo (k : Nat)
  | voidT
  | opaqueT (k : Nat)
deriving DecidableEq, Repr

/-- LLVM constants, as far as the pass builds or inspects them:
undef, integer constants, vector constants, null pointers
(`ConstantPointerNull`) and `ConstantExpr::getExtractElement`. -/
inductive Const where
  | undef (t : Typ)
  | intC (t : Typ) (v : Int)
  | vecC (k : Nat) (lanes : List Int)
  | nullPtr (k : Nat)
  | extractElemC (c : Const) (laneIdx : Nat)
deriving DecidableEq, Repr

/-- An SSA value: an instruction (by id, with its type), a function
argument, or a constant. -/
inductive Val where
  | inst (id : Nat) (t : Typ)
  | arg (n : Nat) (t : Typ)
  | const (c : Const)
deriving DecidableEq, Repr

/-- The GenISA intrinsics the pass distinguishes (the three VME send
intrinsics force Recovery for PHI nodes); all else is `otherIntr`. -/
inductive GenIntr where
  | vmeSendIME2
  | vmeSendFBR2
  | vmeSendSIC2
  | otherIntr (n : Nat)
deriving DecidableEq, Repr

/-- Instruction opcodes with their operands.  `binop`/`cmp`/`cast` carry an
opcode number so that distinct LLVM opcodes stay distinct; `binop` also
carries the arithmetic flags (nsw/nuw/exact/fast-math) that the pass copies
verbatim onto each lane instruction. -/
inductive Op where
  | binop (kind : Nat) (flags : Nat) (a b : Val)
  | cmp (kind : Nat) (pred : Nat) (a b : Val)
  | cast (kind : Nat) (a : Val)
  | phi (incoming : List (Val × Nat))
  | select (c tv fv : Val)
  | extractElem (v i : Val)
  | insertElem (v s i : Val)
  | shuffle (a b : Val) (mask : List Int)
  | load (ptr : Val)
  | store (v ptr : Val)
  | alloca
  | gep (ops : List Val)
  | call (intr : Option GenIntr) (args : List Val)
  | otherOp (ops : List Val)
deriving DecidableEq, Repr

/-- The `BitCast` opcode number for `Op.cast` (matters because the pass
treats bitcasts specially). -/
def bitcastKind : Nat := 0

/-- An instruction: id (pointer identity), result type, basic-block id and
opcode.  The function body is the list of instructions in program order;
instructions of one basic block are contiguous. -/
structure Instr where
  id : Nat
  t : Typ
  bb : Nat
  op : Op
deriving DecidableEq, Repr

/-- `SCMEntry` (Scalarizer.h): the per-lane decomposition of one vector
value (`scalarValues`, whose slot 0 being null marks the entry unresolved)
and whether the original vector instruction was removed. -/
structure SCMEntry where
  scalarValues : List (Option Val)
  isOriginalVectorRemoved : Bool
deriving DecidableEq, Repr

/-- `DRLEntry`: a forward-referenced vector value and the dummy (placeholder)
values handed out for its lanes. -/
structure DRLEntry where
  unresolvedInst : Val
  dummyVals : List Val
deriving DecidableEq, Repr

/-- The per-function state of the pass: the function body, the SCM, the DRL,
the used-whole set (`m_usedVectors`), the removed set (`m_removedInsts`),
instructions created but not inserted into the body (exactly the dummy
loads), the fresh-id counter, and the vector-load/store policy flag
(`m_ScalarizingVectorLDSTType`). -/
structure PassState where
  body : List Instr
  scm : List (Val × SCMEntry)
  drl : List DRLEntry
  usedVectors : List Val
  removedInsts : List Nat
  unplaced : List Instr
  fresh : Nat
  scalarizeLDST : Bool
deriving DecidableEq, Repr

/-! ### Basic helpers over types and values -/

/-- Number of lanes of a type (0 for non-vector types). -/
def widthOf : Typ → Nat
  | .vector _ w => w
  | _ => 0

/-- Element kind of a vector type (junk 0 for non-vector types). -/
def elemKindOf : Typ → Nat
  | .vector k _ => k
  | _ => 0

/-- Type of a constant. -/
def constTypeOf : Const → Typ
  | .undef t => t
  | .intC t _ => t
  | .vecC k lanes => .vector k lanes.length
  | .nullPtr k => .pointerTo k
  | .extractElemC c _ =>
      match constTypeOf c with
      | .vector k _ => .scalar k
      | t => t

/-- Type of a value. -/
def typeOf : Val → Typ
  | .inst _ t => t
  | .arg _ t => t
  | .const c => constTypeOf c

/-- `isa<VectorType>`. -/
def isVectorTy : Typ → Bool
  | .vector _ _ => true
  | _ => false

/-- `isa<Constant>`. -/
def isConstVal : Val → Bool
  | .const _ => true
  | _ => false

/-- `isa<UndefValue>`. -/
def isUndefVal : Val → Bool
  | .const (.undef _) => true
  | _ => false

/-- `isa<Instruction>`. -/
def isInstVal : Val → Bool
  | .inst _ _ => true
  | _ => false

/-- `isa<ConstantInt>`. -/
def isConstIntVal : Val → Bool
  | .const (.intC _ _) => true
  | _ => false

/-- `getZExtValue` of a `ConstantInt` (junk 0 otherwise). -/
def constIntNat : Val → Nat
  | .const (.intC _ v) => v.toNat
  | _ => 0

/-- A junk value standing for reads the C++ code guards with asserts. -/
def junkVal : Val := .const (.undef (.opaqueT 0))

/-- `i32` constant `n` (used for extract/insert lane indices). -/
def i32Const (n : Nat) : Val := .const (.intC (.scalar 32) (Int.ofNat n))

/-- The value handle of an instruction. -/
def Instr.val (i : Instr) : Val := .inst i.id i.t

/-- Whether an opcode is a PHI node. -/
def isPhiOp : Op → Bool
  | .phi _ => true
  | _ => false

/-- The operand list of an instruction, in operand order (for a PHI the
operands are the incoming values; the incoming blocks are not operands,
matching LLVM). -/
def opVals : Op → List Val
  | .binop _ _ a b => [a, b]
  | .cmp _ _ a b => [a, b]
  | .cast _ a => [a]
  | .phi inc => inc.map (·.1)
  | .select c tv fv => [c, tv, fv]
  | .extractElem v i => [v, i]
  | .insertElem v s i => [v, s, i]
  | .shuffle a b _ => [a, b]
  | .load ptr => [ptr]
  | .store v ptr => [v, ptr]
  | .alloca => []
  | .gep ops => ops
  | .call _ args => args
  | .otherOp ops => ops

/-- One operand's share of `replaceAllUsesWith old new`. -/
def replaceVal (old new a : Val) : Val :=
  if a = old then new else a

/-- Replace every operand equal to `old` by `new`
(one instruction's share of `replaceAllUsesWith`). -/
def rauwOp (old new : Val) : Op → Op
  | .binop k fl a b => .binop k fl (replaceVal old new a) (replaceVal old new b)
  | .cmp k p a b => .cmp k p (replaceVal old new a) (replaceVal old new b)
  | .cast k a => .cast k (replaceVal old new a)
  | .phi inc => .phi (inc.map (fun p => (replaceVal old new p.1, p.2)))
  | .select c tv fv =>
      .select (replaceVal old new c) (replaceVal old new tv) (replaceVal old new fv)
  | .extractElem v i => .extractElem (replaceVal old new v) (replaceVal old new i)
  | .insertElem v s i =>
      .insertElem (replaceVal old new v) (replaceVal old new s) (replaceVal old new i)
  | .shuffle a b m => .shuffle (replaceVal old new a) (replaceVal old new b) m
  | .load ptr => .load (replaceVal old new ptr)
  | .store v ptr => .store (replaceVal old new v) (replaceVal old new ptr)
  | .alloca => .alloca
  | .gep ops => .gep (ops.map (replaceVal old new))
  | .call intr args => .call intr (args.map (replaceVal old new))
  | .otherOp ops => .otherOp (ops.map (replaceVal old new))

/-- `replaceAllUsesWith old new` over a function body. -/
def rauwBody (old new : Val) (body : List Instr) : List Instr :=
  body.map (fun i => { i with op := rauwOp old new i.op })

/-! ### Body (instruction list) helpers -/

/-- Find the instruction with the given id. -/
def findInstr (body : List Instr) (id : Nat) : Option Instr :=
  body.find? (fun i => i.id = id)

/-- Id of the instruction immediately after the one with the given id
(`++iterator`), or `none` at the end of the body. -/
def nextIdAfter (body : List Instr) (id : Nat) : Option Nat :=
  ((body.dropWhile (fun i => i.id ≠ id)).drop 1).head?.map (·.id)

/-- `BasicBlock::getFirstNonPHI` of the block `bb`
(first non-PHI instruction of that block, by id). -/
def firstNonPHIIn (body : List Instr) (bb : Nat) : Option Nat :=
  (body.find? (fun i => i.bb = bb ∧ ¬ isPhiOp i.op)).map (·.id)

/-- Insert the instructions `news` (in order) immediately before the
instruction with id `locId`; `none` (or an absent id) inserts at the end
(the C++ code only ever passes live positions). -/
def insertBeforeId (body : List Instr) (locId : Option Nat) (news : List Instr) : List Instr :=
  match locId with
  | none => body ++ news
  | some lid =>
      (body.takeWhile (fun i => i.id ≠ lid)) ++ news ++ (body.dropWhile (fun i => i.id ≠ lid))

/-- Remove the instruction with the given id (`eraseFromParent`). -/
def eraseId (body : List Instr) (id : Nat) : List Instr :=
  body.filter (fun i => i.id ≠ id)

/-- Largest instruction id in a body (fresh ids start above it). -/
def maxId (body : List Instr) : Nat :=
  body.foldr (fun i acc => max i.id acc) 0

/-- Insert into an insertion-ordered set (`SmallSetVector::insert`). -/
def insertUnique (l : List Val) (v : Val) : List Val :=
  if v ∈ l then l else l ++ [v]

/-- Insert into the removed-instructions set. -/
def insertRemoved (l : List Nat) (id : Nat) : List Nat :=
  if id ∈ l then l else l ++ [id]

/-! ### SCM access -/

/-- Lane `i` of an SCM entry (`entry->scalarValues[i]`, `none` past the
end). -/
def laneAt (e : SCMEntry) (i : Nat) : Option Val :=
  e.scalarValues.getD i none

/-- Whether an SCM entry is resolved (`scalarValues[0] != NULL`). -/
def entryResolved (e : SCMEntry) : Bool :=
  (laneAt e 0).isSome

/-- SCM lookup (`m_SCM.count` / `m_SCM[v]`). -/
def lookupSCM (scm : List (Val × SCMEntry)) (v : Val) : Option SCMEntry :=
  (scm.find? (fun p => p.1 = v)).map (·.2)

/-- Overwrite the entry of key `v` (the C++ code mutates the entry through a
pointer that is always in the map; an absent key is left unchanged). -/
def setSCM (scm : List (Val × SCMEntry)) (v : Val) (e : SCMEntry) : List (Val × SCMEntry) :=
  scm.map (fun p => if p.1 = v then (v, e) else p)

/-- `ScalarizeFunction::getSCMEntry`: return the state after making sure
`origValue` has an SCM entry, allocating an unresolved one
(`scalarValues[0] = NULL`) if absent. -/
def getSCMEntryState (st : PassState) (origValue : Val) : PassState :=
  match lookupSCM st.scm origValue with
  | some _ => st
  | none => { st with scm := st.scm ++ [(origValue, ⟨[none], false⟩)] }

/-- `ScalarizeFunction::updateSCMEntryWithValues`: resize the entry of key
`origValue` to the vector width of `origValue`'s type, fill every lane from
`vals`, and set the removed flag.  (Debug-location matching is not
modelled.) -/
def scmUpdate (st : PassState) (origValue : Val) (vals : List Val)
    (isOrigValueRemoved : Bool) : PassState :=
  let width := widthOf (typeOf origValue)
  let newLanes := (List.range width).map (fun i => some (vals.getD i junkVal))
  { st with scm := setSCM st.scm origValue ⟨newLanes, isOrigValueRemoved⟩ }

/-- Lanes of the entry of key `v` if it exists and is resolved. -/
def resolvedLanes (st : PassState) (v : Val) : Option (List (Option Val)) :=
  match lookupSCM st.scm v with
  | some e => if entryResolved e then some e.scalarValues else none
  | none => none

/-! ### Insert-location computation -/

/-- Insert location used by `obtainScalarizedValues` (case of an existing
instruction) and by `resolveDeferredInstructions`: the instruction after
`vid`, moved past the PHI cluster of its block if it is a PHI. -/
def nextLocAfter (body : List Instr) (vid : Nat) : Option Nat :=
  match nextIdAfter body vid with
  | some nid =>
      match findInstr body nid with
      | some ni => if isPhiOp ni.op then firstNonPHIIn body ni.bb else some nid
      | none => some nid
  | none => none

/-- Basic block of an insert location (instructions inserted before a
location join that instruction's block). -/
def bbOfLoc (body : List Instr) (locId : Option Nat) : Nat :=
  match locId with
  | some lid =>
      match findInstr body lid with
      | some i => i.bb
      | none => 0
  | none =>
      match body.getLast? with
      | some i => i.bb
      | none => 0

/-- Write `vals` into slots `[off, off + vals.length)` of `l`, keeping the
other slots (the `destIdx` form of `obtainScalarizedValues`, used by the
shufflevector rule to fill the concatenated lane array). -/
def writeSlice (l : List (Option Val)) (off : Nat) (vals : List Val) : List (Option Val) :=
  l.enum.map (fun p =>
    if off ≤ p.1 ∧ p.1 < off + vals.length then some (vals.getD (p.1 - off) junkVal) else p.2)

/-! ### `obtainScalarizedValues` (SCM access protocol) -/

/-- `ScalarizeFunction::obtainScalarizedValues`: produce the `width` lane
values of `origValue`, by priority: an existing resolved SCM entry; a
wholly-undef constant (per-lane scalar undefs); any other constant
(per-lane constant extract-element expressions); an instruction with no SCM
entry yet (allocate unplaced dummy loads of a null pointer and record a DRL
entry); anything else (synthesize real extractelement instructions after
the value's definition, past any PHI cluster — or at the function head if
the value is not an instruction — and cache them as a new resolved SCM
entry).  Returns (lanes, `retIsConstant`, updated state). -/
def obtainScalarizedValues (st : PassState) (origValue : Val) :
    List Val × Bool × PassState :=
  let origType := typeOf origValue
  let width := widthOf origType
  let retIsConstant := isConstVal origValue
  let currEntry := lookupSCM st.scm origValue
  if (currEntry.map entryResolved).getD false then
    let e := currEntry.getD ⟨[none], false⟩
    ((List.range width).map (fun i => (laneAt e i).getD junkVal), retIsConstant, st)
  else if isUndefVal origValue then
    (List.replicate width (Val.const (.undef (.scalar (elemKindOf origType)))),
      retIsConstant, st)
  else if isConstVal origValue then
    ((List.range width).map (fun i =>
        match origValue with
        | .const c => Val.const (.extractElemC c i)
        | _ => junkVal),
      retIsConstant, st)
  else if isInstVal origValue && currEntry.isNone then
    let elemK := elemKindOf origType
    let dummyPtr := Val.const (.nullPtr elemK)
    let dummies := (List.range width).map (fun i =>
        Instr.mk (st.fresh + i) (.scalar elemK) 0 (.load dummyPtr))
    let st' := { st with
        unplaced := st.unplaced ++ dummies,
        drl := st.drl ++ [⟨origValue, dummies.map Instr.val⟩],
        fresh := st.fresh + width }
    (dummies.map Instr.val, retIsConstant, st')
  else
    let locId : Option Nat :=
      match origValue with
      | .inst oid _ => nextLocAfter st.body oid
      | _ => st.body.head?.map (·.id)
    let locBB := bbOfLoc st.body locId
    let elemK := elemKindOf origType
    let news := (List.range width).map (fun i =>
        Instr.mk (st.fresh + i) (.scalar elemK) locBB (.extractElem origValue (i32Const i)))
    let st1 := { st with body := insertBeforeId st.body locId news, fresh := st.fresh + width }
    let st2 := getSCMEntryState st1 origValue
    let st3 := scmUpdate st2 origValue (news.map Instr.val) false
    (news.map Instr.val, retIsConstant, st3)

/-! ### Recovery and the per-opcode scalarization rules -/

/-- `ScalarizeFunction::obtainVectorValueWhichMightBeScalarized`:
register a vector value in the used-whole set. -/
def obtainVectorValueWhichMightBeScalarized (st : PassState) (v : Val) : PassState :=
  { st with usedVectors := insertUnique st.usedVectors v }

/-- `ScalarizeFunction::recoverNonScalarizableInst`: give any vector-typed
result an (empty) SCM entry and register every vector-typed operand in the
used-whole set.  (For a call instruction the C++ code iterates the argument
operands, which coincides with `opVals` for `Op.call`.) -/
def recoverNonScalarizableInst (st : PassState) (inst : Instr) : PassState :=
  let st1 := if isVectorTy inst.t then getSCMEntryState st inst.val else st
  (opVals inst.op).foldl (fun acc v =>
      if isVectorTy (typeOf v) then obtainVectorValueWhichMightBeScalarized acc v
      else acc) st1

/-- `scalarizeInstruction(BinaryOperator*)`: for a vector binary operation,
obtain both operands' lanes; if both operands are constants, stop (the
constant short-circuit); otherwise emit one scalar binary instruction per
lane before the original (copying the arithmetic flags), record the lanes
as the instruction's resolved SCM entry and mark it removed. -/
def scalarizeBinaryOperator (st : PassState) (bi : Instr) : PassState :=
  match bi.op with
  | .binop kind flags a b =>
    match bi.t with
    | .vector ek w =>
      let st1 := getSCMEntryState st bi.val
      let r0 := obtainScalarizedValues st1 a
      let r1 := obtainScalarizedValues r0.2.2 b
      if r0.2.1 && r1.2.1 then r1.2.2
      else
        let news := (List.range w).map (fun i =>
            Instr.mk (r1.2.2.fresh + i) (.scalar ek) bi.bb
              (.binop kind flags (r0.1.getD i junkVal) (r1.1.getD i junkVal)))
        let st2 := { r1.2.2 with body := insertBeforeId r1.2.2.body (some bi.id) news,
                                 fresh := r1.2.2.fresh + w }
        let st3 := scmUpdate st2 bi.val (news.map Instr.val) true
        { st3 with removedInsts := insertRemoved st3.removedInsts bi.id }
    | _ => st
  | _ => st

/-- `scalarizeInstruction(CmpInst*)`: same shape as the binary case, with
the predicate copied onto each lane compare. -/
def scalarizeCmp (st : PassState) (ci : Instr) : PassState :=
  match ci.op with
  | .cmp kind pred a b =>
    match ci.t with
    | .vector ek w =>
      let st1 := getSCMEntryState st ci.val
      let r0 := obtainScalarizedValues st1 a
      let r1 := obtainScalarizedValues r0.2.2 b
      if r0.2.1 && r1.2.1 then r1.2.2
      else
        let news := (List.range w).map (fun i =>
            Instr.mk (r1.2.2.fresh + i) (.scalar ek) ci.bb
              (.cmp kind pred (r0.1.getD i junkVal) (r1.1.getD i junkVal)))
        let st2 := { r1.2.2 with body := insertBeforeId r1.2.2.body (some ci.id) news,
                                 fresh := r1.2.2.fresh + w }
        let st3 := scmUpdate st2 ci.val (news.map Instr.val) true
        { st3 with removedInsts := insertRemoved st3.removedInsts ci.id }
    | _ => st
  | _ => st

/-- Common part of `scalarizeInstruction(CastInst*)` once the bitcast lane
check passed: emit one scalar cast per lane (to the element type). -/
def scalarizeCastCore (st : PassState) (ci : Instr) (ck : Nat) (a : Val) : PassState :=
  match ci.t with
  | .vector ek w =>
    let st1 := getSCMEntryState st ci.val
    let r0 := obtainScalarizedValues st1 a
    if r0.2.1 then r0.2.2
    else
      let news := (List.range w).map (fun i =>
          Instr.mk (r0.2.2.fresh + i) (.scalar ek) ci.bb (.cast ck (r0.1.getD i junkVal)))
      let st2 := { r0.2.2 with body := insertBeforeId r0.2.2.body (some ci.id) news,
                               fresh := r0.2.2.fresh + w }
      let st3 := scmUpdate st2 ci.val (news.map Instr.val) true
      { st3 with removedInsts := insertRemoved st3.removedInsts ci.id }
  | _ => st

/-- `scalarizeInstruction(CastInst*)`: a bitcast is scalarized only when
source and destination are vectors of the same lane count (otherwise
Recovery); a non-bitcast cast is scalarized only when its result is a
vector. -/
def scalarizeCast (st : PassState) (ci : Instr) : PassState :=
  match ci.op with
  | .cast ck a =>
    if ck = bitcastKind then
      if !(isVectorTy ci.t) then recoverNonScalarizableInst st ci
      else if !(isVectorTy (typeOf a)) || widthOf ci.t ≠ widthOf (typeOf a) then
        recoverNonScalarizableInst st ci
      else scalarizeCastCore st ci ck a
    else
      if !(isVectorTy ci.t) then st
      else scalarizeCastCore st ci ck a
  | _ => st

/-- Whether a value is produced by one of the three VME send GenISA
intrinsics (the PHI Recovery trigger). -/
def isVmeSendVal (st : PassState) (v : Val) : Bool :=
  match v with
  | .inst id _ =>
      match findInstr st.body id with
      | some i =>
          match i.op with
          | .call (some .vmeSendIME2) _ => true
          | .call (some .vmeSendFBR2) _ => true
          | .call (some .vmeSendSIC2) _ => true
          | _ => false
      | none => false
  | _ => false

/-- Position of `x` in `l` (first occurrence). -/
def posIn (l : List Nat) (x : Nat) : Option Nat :=
  match l with
  | [] => none
  | y :: ys => if y = x then some 0 else (posIn ys x).map (· + 1)

/-- `PHINode::addIncoming` on the scalar PHI nodes `phiIds`: append
`(lanes[k], blk)` to the incoming list of the `k`-th scalar PHI. -/
def addIncomingToPhis (body : List Instr) (phiIds : List Nat) (lanes : List Val)
    (blk : Nat) : List Instr :=
  body.map (fun i =>
    match posIn phiIds i.id with
    | some idx =>
        match i.op with
        | .phi inc => { i with op := .phi (inc ++ [(lanes.getD idx junkVal, blk)]) }
        | _ => i
    | none => i)

/-- `scalarizeInstruction(PHINode*)`: if any incoming value comes from a VME
send intrinsic, Recovery; otherwise create `width` empty scalar PHI nodes
before the original and fill them with the corresponding lane of every
incoming value, record them as the resolved SCM entry and mark the original
removed. -/
def scalarizePHI (st : PassState) (pin : Instr) : PassState :=
  match pin.op with
  | .phi inc =>
    match pin.t with
    | .vector ek w =>
      if inc.any (fun p => isVmeSendVal st p.1) then recoverNonScalarizableInst st pin
      else
        let st1 := getSCMEntryState st pin.val
        let phiIds := (List.range w).map (fun i => st1.fresh + i)
        let newPhis := (List.range w).map (fun i =>
            Instr.mk (st1.fresh + i) (.scalar ek) pin.bb (.phi []))
        let st2 := { st1 with body := insertBeforeId st1.body (some pin.id) newPhis,
                              fresh := st1.fresh + w }
        let st3 := inc.foldl (fun acc p =>
            let r := obtainScalarizedValues acc p.1
            { r.2.2 with body := addIncomingToPhis r.2.2.body phiIds r.1 p.2 }) st2
        let st4 := scmUpdate st3 pin.val
            (phiIds.map (fun pid => Val.inst pid (.scalar ek))) true
        { st4 with removedInsts := insertRemoved st4.removedInsts pin.id }
    | _ => st
  | _ => st

/-- `scalarizeInstruction(SelectInst*)`: broadcast a scalar condition (or
decompose a vector one); per lane, emit a scalar select before the original
unless the lane's true and false values coincide, in which case the value
is reused directly. -/
def scalarizeSelect (st : PassState) (si : Instr) : PassState :=
  match si.op with
  | .select cond tv fv =>
    match si.t with
    | .vector ek w =>
      let st1 := getSCMEntryState st si.val
      let rT := obtainScalarizedValues st1 tv
      let rF := obtainScalarizedValues rT.2.2 fv
      let condPair :=
        if isVectorTy (typeOf cond) then
          let rC := obtainScalarizedValues rF.2.2 cond
          (rC.1, rC.2.2)
        else (List.replicate w cond, rF.2.2)
      let fold := (List.range w).foldl (fun (acc : PassState × List Val) i =>
          let tvi := rT.1.getD i junkVal
          let fvi := rF.1.getD i junkVal
          if tvi ≠ fvi then
            let ni := Instr.mk acc.1.fresh (.scalar ek) si.bb
                (.select (condPair.1.getD i junkVal) tvi fvi)
            ({ acc.1 with body := insertBeforeId acc.1.body (some si.id) [ni],
                          fresh := acc.1.fresh + 1 }, acc.2 ++ [ni.val])
          else (acc.1, acc.2 ++ [tvi])) (condPair.2, [])
      let st5 := scmUpdate fold.1 si.val fold.2 true
      { st5 with removedInsts := insertRemoved st5.removedInsts si.id }
    | _ => st
  | _ => st

/-- `scalarizeInstruction(ExtractElementInst*)`: with a constant index,
obtain the source's lanes, replace every use of the extractelement by the
indexed lane and mark it removed; with a non-constant index, Recovery. -/
def scalarizeExtractElement (st : PassState) (ei : Instr) : PassState :=
  match ei.op with
  | .extractElem v idxv =>
    if !(isConstIntVal idxv) then recoverNonScalarizableInst st ei
    else
      let r := obtainScalarizedValues st v
      let scalarIndex := constIntNat idxv
      let lane := r.1.getD scalarIndex junkVal
      let st2 := { r.2.2 with body := rauwBody ei.val lane r.2.2.body }
      { st2 with removedInsts := insertRemoved st2.removedInsts ei.id }
  | _ => st

/-- `scalarizeInstruction(InsertElementInst*)`: with a constant index,
record as the instruction's resolved SCM entry the source's lanes (or
all-undef lanes for an undef source) with the indexed lane overwritten by
the inserted scalar, and mark it removed; with a non-constant index,
Recovery. -/
def scalarizeInsertElement (st : PassState) (ii : Instr) : PassState :=
  match ii.op with
  | .insertElem sv ssv idxv =>
    if !(isConstIntVal idxv) then recoverNonScalarizableInst st ii
    else
      let st1 := getSCMEntryState st ii.val
      let scalarIndex := constIntNat idxv
      if isUndefVal sv then
        let w := widthOf (typeOf sv)
        let undefE := Val.const (.undef (.scalar (elemKindOf (typeOf sv))))
        let lanes := (List.replicate w undefE).set scalarIndex ssv
        let st2 := scmUpdate st1 ii.val lanes true
        { st2 with removedInsts := insertRemoved st2.removedInsts ii.id }
      else
        let r := obtainScalarizedValues st1 sv
        let lanes := r.1.set scalarIndex ssv
        let st2 := scmUpdate r.2.2 ii.val lanes true
        { st2 with removedInsts := insertRemoved st2.removedInsts ii.id }
  | _ => st

/-- `scalarizeInstruction(ShuffleVectorInst*)`: concatenate the two inputs'
lane decompositions into a `2*width` array (an undef input leaves its half
unavailable), then per output lane select the mask-indexed entry,
substituting a scalar undef for a negative or unavailable index; record the
result as the resolved SCM entry and mark the shuffle removed. -/
def scalarizeShuffle (st : PassState) (si : Instr) : PassState :=
  match si.op with
  | .shuffle a b mask =>
    let wIn := widthOf (typeOf a)
    let all0 : List (Option Val) := List.replicate (2 * wIn) none
    let s1 :=
      if !(isUndefVal a) then
        let r := obtainScalarizedValues st a
        (writeSlice all0 0 r.1, r.2.2)
      else (all0, st)
    let s2 :=
      if !(isUndefVal b) then
        let r := obtainScalarizedValues s1.2 b
        (writeSlice s1.1 wIn r.1, r.2.2)
      else s1
    let wOut := widthOf si.t
    let undefE := Val.const (.undef (.scalar (elemKindOf (typeOf a))))
    let newVector := (List.range wOut).map (fun i =>
        let m := mask.getD i (-1)
        if 0 ≤ m then
          match s2.1.getD m.toNat none with
          | some v => v
          | none => undefE
        else undefE)
    let st3 := getSCMEntryState s2.2 si.val
    let st4 := scmUpdate st3 si.val newVector true
    { st4 with removedInsts := insertRemoved st4.removedInsts si.id }
  | _ => st

/-- `scalarizeInstruction(LoadInst*)`: when vector load/store scalarization
is enabled and the loaded type is a vector, bitcast the pointer to the
element type, emit one GEP and one scalar load per lane before the
original, record the loads as the resolved SCM entry and mark the original
removed; otherwise Recovery. -/
def scalarizeLoad (st : PassState) (li : Instr) : PassState :=
  match li.op with
  | .load ptr =>
    match li.t with
    | .vector ek w =>
      if st.scalarizeLDST then
        let st1 := getSCMEntryState st li.val
        let base := Instr.mk st1.fresh (.pointerTo ek) li.bb (.cast bitcastKind ptr)
        let st2 := { st1 with body := insertBeforeId st1.body (some li.id) [base],
                              fresh := st1.fresh + 1 }
        let fold := (List.range w).foldl (fun (acc : PassState × List Val) i =>
            let g := Instr.mk acc.1.fresh (.pointerTo ek) li.bb (.gep [base.val, i32Const i])
            let ld := Instr.mk (acc.1.fresh + 1) (.scalar ek) li.bb (.load g.val)
            ({ acc.1 with body := insertBeforeId acc.1.body (some li.id) [g, ld],
                          fresh := acc.1.fresh + 2 }, acc.2 ++ [ld.val])) (st2, [])
        let st3 := scmUpdate fold.1 li.val fold.2 true
        { st3 with removedInsts := insertRemoved st3.removedInsts li.id }
      else recoverNonScalarizableInst st li
    | _ => recoverNonScalarizableInst st li
  | _ => st

/-- `scalarizeInstruction(StoreInst*)`: when vector load/store scalarization
is enabled and the stored type is a vector, obtain the stored value's
lanes, bitcast the pointer to the element type, emit one GEP and one scalar
store per lane before the original and mark the original removed; otherwise
Recovery. -/
def scalarizeStore (st : PassState) (si : Instr) : PassState :=
  match si.op with
  | .store dval ptr =>
    match typeOf dval with
    | .vector ek w =>
      if st.scalarizeLDST then
        let r := obtainScalarizedValues st dval
        let st1 := r.2.2
        let base := Instr.mk st1.fresh (.pointerTo ek) si.bb (.cast bitcastKind ptr)
        let st2 := { st1 with body := insertBeforeId st1.body (some si.id) [base],
                              fresh := st1.fresh + 1 }
        let st3 := (List.range w).foldl (fun acc i =>
            let g := Instr.mk acc.fresh (.pointerTo ek) si.bb (.gep [base.val, i32Const i])
            let sni := Instr.mk (acc.fresh + 1) .voidT si.bb (.store (r.1.getD i junkVal) g.val)
            { acc with body := insertBeforeId acc.body (some si.id) [g, sni],
                       fresh := acc.fresh + 2 }) st2
        { st3 with removedInsts := insertRemoved st3.removedInsts si.id }
      else recoverNonScalarizableInst st si
    | _ => recoverNonScalarizableInst st si
  | _ => st

/-- `ScalarizeFunction::dispatchInstructionToScalarize`: skip instructions
already marked for removal; otherwise dispatch by opcode (calls, allocas,
GEPs and unrecognized opcodes go to Recovery). -/
def dispatchInstructionToScalarize (st : PassState) (i : Instr) : PassState :=
  if i.id ∈ st.removedInsts then st
  else
    match i.op with
    | .binop .. => scalarizeBinaryOperator st i
    | .cmp .. => scalarizeCmp st i
    | .cast .. => scalarizeCast st i
    | .phi _ => scalarizePHI st i
    | .select .. => scalarizeSelect st i
    | .extractElem .. => scalarizeExtractElement st i
    | .insertElem .. => scalarizeInsertElement st i
    | .shuffle .. => scalarizeShuffle st i
    | .alloca => recoverNonScalarizableInst st i
    | .gep _ => recoverNonScalarizableInst st i
    | .load _ => scalarizeLoad st i
    | .store .. => scalarizeStore st i
    | .call .. => recoverNonScalarizableInst st i
    | .otherOp _ => recoverNonScalarizableInst st i

/-! ### Reassembly (used-whole vectors) -/

/-- Reassembly insert location: the removed original instruction's own
position, moved past the PHI cluster of its block when the original is a
PHI. -/
def reassemblyLocId (body : List Instr) (vid : Nat) : Option Nat :=
  match findInstr body vid with
  | some vi => if isPhiOp vi.op then firstNonPHIIn body vi.bb else some vid
  | none => some vid

/-- `ScalarizeFunction::obtainVectorValueWhichMightBeScalarizedImpl`:
if the used-whole value is undef, unknown to the SCM, or its original was
not removed, do nothing.  Otherwise rebuild the vector as a chain of
`width` insertelement instructions starting from an undefined vector,
inserting each resolved lane in index order where the original instruction
stood (after the PHI cluster if the original is a PHI), replace the
remaining uses of the original with the reconstructed vector, and register
the reconstructed vector as a fresh non-removed SCM entry. -/
def obtainVectorValueWhichMightBeScalarizedImpl (st : PassState) (vectorVal : Val) :
    PassState :=
  if isUndefVal vectorVal then st
  else
    match lookupSCM st.scm vectorVal with
    | none => st
    | some valueEntry =>
      if valueEntry.isOriginalVectorRemoved = false then st
      else
        match vectorVal with
        | .inst vid vt =>
          let insertLocId := reassemblyLocId st.body vid
          let locBB := bbOfLoc st.body insertLocId
          let w := widthOf vt
          let fold := (List.range w).foldl (fun (acc : PassState × Val) i =>
              let ins := Instr.mk acc.1.fresh vt locBB
                  (.insertElem acc.2 ((laneAt valueEntry i).getD junkVal) (i32Const i))
              ({ acc.1 with body := insertBeforeId acc.1.body insertLocId [ins],
                            fresh := acc.1.fresh + 1 }, ins.val))
              (st, Val.const (.undef vt))
          let st1 := { fold.1 with body := rauwBody vectorVal fold.2 fold.1.body }
          let st2 := getSCMEntryState st1 fold.2
          scmUpdate st2 fold.2 ((List.range w).map (fun i => (laneAt valueEntry i).getD junkVal))
            false
        | _ => st

/-- `ScalarizeFunction::resolveVectorValues`: run reassembly over the
used-whole set, in insertion order. -/
def resolveVectorValues (st : PassState) : PassState :=
  st.usedVectors.foldl obtainVectorValueWhichMightBeScalarizedImpl st

/-! ### DRL resolution -/

/-- The `isDummyValue` lambda of `resolveDeferredInstructions`: a load
instruction whose pointer operand is a constant null pointer. -/
def isDummyValue (st : PassState) (v : Val) : Bool :=
  match v with
  | .inst id _ =>
      match findInstr (st.body ++ st.unplaced) id with
      | some i =>
          match i.op with
          | .load (.const (.nullPtr _)) => true
          | _ => false
      | none => false
  | _ => false

/-- `isDummyValue` lifted to an optional lane. -/
def isDummyLane (st : PassState) (o : Option Val) : Bool :=
  match o with
  | some v => isDummyValue st v
  | none => false

/-- The re-scalarization half of one `resolveDeferredInstructions`
iteration: synthesize a real extractelement after the target (past any PHI
cluster) for every lane that is missing or still a dummy, keep the others,
and store the completed lane list back into the target's SCM entry
(non-removed).  `e1` is the target's entry and `scInit` its
`scalarValues[0] != NULL` check, both read before the loop. -/
def drlFixup (st1 : PassState) (target : Val) (vid : Nat) (vt : Typ)
    (e1 : SCMEntry) (scInit : Bool) (width : Nat) : PassState :=
  let locId := nextLocAfter st1.body vid
  let locBB := bbOfLoc st1.body locId
  let fold := (List.range width).foldl (fun (acc : PassState × List Val) i =>
      if !scInit || isDummyLane st1 (laneAt e1 i) then
        let ee := Instr.mk acc.1.fresh (.scalar (elemKindOf vt)) locBB
            (.extractElem target (i32Const i))
        ({ acc.1 with body := insertBeforeId acc.1.body locId [ee],
                      fresh := acc.1.fresh + 1 }, acc.2 ++ [ee.val])
      else (acc.1, acc.2 ++ [(laneAt e1 i).getD junkVal])) (st1, [])
  scmUpdate fold.1 target fold.2 false

/-- The connection half of one `resolveDeferredInstructions` iteration:
replace all uses of each recorded placeholder by its resolved lane (read
from the target's now-complete entry `e2`) and delete the placeholder. -/
def drlConnect (st2 : PassState) (dummyVals : List Val) (e2 : SCMEntry)
    (width : Nat) : PassState :=
  (List.range width).foldl (fun acc i =>
      let dummyVal := dummyVals.getD i junkVal
      let scalarVal := (laneAt e2 i).getD junkVal
      { acc with body := rauwBody dummyVal scalarVal acc.body,
                 unplaced :=
                   match dummyVal with
                   | .inst did _ => acc.unplaced.filter (fun u => u.id ≠ did)
                   | _ => acc.unplaced }) st2

/-- One iteration of the `resolveDeferredInstructions` loop: if the
target's SCM entry is unresolved or still holds dummy lanes, run
`drlFixup`; then run `drlConnect`. -/
def resolveDRLEntry (st : PassState) (cur : DRLEntry) : PassState :=
  match cur.unresolvedInst with
  | .inst vid vt =>
    let width := widthOf vt
    let st1 := getSCMEntryState st cur.unresolvedInst
    let e1 := (lookupSCM st1.scm cur.unresolvedInst).getD ⟨[none], false⟩
    let scalarsInitialized := entryResolved e1
    let hasDummyLoad := scalarsInitialized &&
        (List.range width).any (fun i => isDummyLane st1 (laneAt e1 i))
    let st2 :=
      if !scalarsInitialized || hasDummyLoad then
        drlFixup st1 cur.unresolvedInst vid vt e1 scalarsInitialized width
      else st1
    let e2 := (lookupSCM st2.scm cur.unresolvedInst).getD ⟨[none], false⟩
    drlConnect st2 cur.dummyVals e2 width
  | _ => st

/-- `ScalarizeFunction::resolveDeferredInstructions`: resolve every DRL
entry in creation order, then clear the DRL. -/
def resolveDeferredInstructions (st : PassState) : PassState :=
  let st' := st.drl.foldl resolveDRLEntry st
  { st' with drl := [] }

/-! ### The orchestrator (`runOnFunction`) -/

/-- The traversal loop of `runOnFunction`: the cursor is advanced past the
current instruction before dispatching it, so instructions inserted during
scalarization (always at or before the current instruction) are never
revisited.  The fuel is the number of remaining visits; `runOnFunction`
passes the initial body length, which bounds the number of visits because
scalarization never inserts at or after the advanced cursor. -/
def traverseLoop : Nat → PassState → Option Nat → PassState
  | 0, st, _ => st
  | _ + 1, st, none => st
  | fuel + 1, st, some cid =>
      match findInstr st.body cid with
      | none => st
      | some curr =>
          let nid := nextIdAfter st.body cid
          traverseLoop fuel (dispatchInstructionToScalarize st curr) nid

/-- The deletion loop at the end of `runOnFunction`: for every instruction
marked removed, replace its residual uses by undef and erase it. -/
def deleteRemoved (st : PassState) : List Instr :=
  st.removedInsts.foldl (fun b id =>
      match findInstr b id with
      | some i => eraseId (rauwBody i.val (Val.const (.undef i.t)) b) id
      | none => b) st.body

/-- A function, as far as the pass inspects it: whether it is a
declaration, whether it returns void, and its body. -/
structure Func where
  isDecl : Bool
  retVoid : Bool
  body : List Instr
deriving DecidableEq, Repr

/-- The per-function processing of `runOnFunction` after the early-exit
checks: reset state, traverse/dispatch, reassemble used-whole vectors,
resolve the DRL, delete removed instructions — and return `true`. -/
def processFunction (scalarizeLDST : Bool) (F : Func) : Func × Bool :=
  let st0 : PassState := {
    body := F.body, scm := [], drl := [], usedVectors := [], removedInsts := [],
    unplaced := [], fresh := maxId F.body + 1, scalarizeLDST := scalarizeLDST }
  let st1 := traverseLoop F.body.length st0 (st0.body.head?.map (·.id))
  let st2 := resolveVectorValues st1
  let st3 := resolveDeferredInstructions st2
  ({ F with body := deleteRemoved st3 }, true)

/-- `ScalarizeFunction::runOnFunction`: skip declarations (when function
control is not force-inline) or non-void-returning functions (when it is);
otherwise process the function and report the result. -/
def runOnFunction (forceInline scalarizeLDST : Bool) (F : Func) : Func × Bool :=
  if forceInline = false then
    if F.isDecl then (F, false) else processFunction scalarizeLDST F
  else
    if !F.retVoid then (F, false) else processFunction scalarizeLDST F

/-! ### Properties used in theorem statements -/

/-- The lane invariant of the SCM: every resolved entry has exactly as many
lanes as the vector width of its owning value's type, and no lane is
null. -/
def scmLaneInvariant (st : PassState) : Prop :=
  ∀ p ∈ st.scm, entryResolved p.2 = true →
    p.2.scalarValues.length = widthOf (typeOf p.1) ∧ ∀ o ∈ p.2.scalarValues, o.isSome = true

/-- Id of an instruction value (junk 0 otherwise). -/
def valId : Val → Nat
  | .inst id _ => id
  | _ => 0

/-- Whether a value occurs as an operand of some instruction of the body. -/
def usedInBody (body : List Instr) (v : Val) : Prop :=
  ∃ i ∈ body, v ∈ opVals i.op

/-- All placeholders recorded in the DRL. -/
def allDrlDummies (st : PassState) : List Val :=
  st.drl.flatMap (fun e => e.dummyVals)

/-- Scalar-typed instruction values with ids below the fresh counter
(the shape of every placeholder). -/
def dummyShaped (st : PassState) (d : Val) : Prop :=
  ∃ did dk, d = Val.inst did (Typ.scalar dk) ∧ did < st.fresh

/-- A value is backed by an unplaced dummy load (a load of a constant null
pointer). -/
def backedByUnplacedDummy (st : PassState) (d : Val) : Prop :=
  ∃ u ∈ st.unplaced, u.id = valId d ∧ ∃ pk, u.op = Op.load (Val.const (Const.nullPtr pk))

/-- The lanes currently stored for a value's SCM entry ([] if absent). -/
def scmLanesOf (st : PassState) (v : Val) : List (Option Val) :=
  match lookupSCM st.scm v with
  | some e => e.scalarValues
  | none => []

/-- Well-formedness of a pass state at the start of DRL resolution, as
established by the traversal phase:
* every DRL target is a vector-typed instruction present in the body, with
  one recorded placeholder per lane;
* every recorded placeholder is a scalar-typed instruction value below the
  fresh counter, backed by an unplaced dummy load, its id is not a body id,
  and placeholder ids are globally distinct;
* a placeholder recorded by the `j`-th DRL entry can appear among the SCM
  lanes of the `i`-th entry's target only when `j > i` (placeholders are
  recorded no earlier than the forward reference that created the target's
  own entry, so a target's lanes only hold placeholders of later entries).
-/
structure DRLInv (st : PassState) : Prop where
  targets : ∀ e ∈ st.drl, ∃ vid k w, e.unresolvedInst = Val.inst vid (Typ.vector k w) ∧
      e.dummyVals.length = w ∧ (∃ bi ∈ st.body, bi.id = vid)
  dummy_shape : ∀ d ∈ allDrlDummies st, dummyShaped st d
  dummy_backed : ∀ d ∈ allDrlDummies st, backedByUnplacedDummy st d
  dummy_not_body : ∀ d ∈ allDrlDummies st, ∀ bi ∈ st.body, bi.id ≠ valId d
  dummy_nodup : ((allDrlDummies st).map valId).Nodup
  ordered : ∀ i j, i < st.drl.length → j < st.drl.length → j ≤ i →
      ∀ d ∈ (st.drl.getD j ⟨junkVal, []⟩).dummyVals,
        some d ∉ scmLanesOf st ((st.drl.getD i ⟨junkVal, []⟩).unresolvedInst)

/-! ### Concrete example inputs -/

/-- A `<2 x i32>` function argument. -/
def exArgVec : Val := .arg 0 (.vector 32 2)

/-- `%e = extractelement <2 x i32> %v, i32 0` (constant index, the source
is an argument with no decomposition yet). -/
def exEE : Instr := Instr.mk 1 (.scalar 32) 0 (.extractElem exArgVec (i32Const 0))

/-- `%r = add i32 %e, 1`. -/
def exAdd : Instr := Instr.mk 2 (.scalar 32) 0 (.binop 0 0 (.inst 1 (.scalar 32)) (i32Const 1))

/-- A function with one constant-index extractelement from an argument and
one scalar add. -/
def exFunc : Func := ⟨false, true, [exEE, exAdd]⟩

/-- A function with a single scalar add and no vector instruction. -/
def scalarOnlyFunc : Func :=
  ⟨false, true, [Instr.mk 1 (.scalar 32) 0 (.binop 0 0 (.arg 0 (.scalar 32)) (i32Const 1))]⟩

/-- `%e = extractelement <4 x i32> %v, i32 2` with `%v` an argument. -/
def exEE4 : Instr := Instr.mk 1 (.scalar 32) 0 (.extractElem (.arg 0 (.vector 32 4)) (i32Const 2))

/-- A pass state holding only `exEE4`. -/
def exSt4 : PassState := ⟨[exEE4], [], [], [], [], [], 2, false⟩

/-- A resolved SCM entry with four concrete lanes. -/
def exEntry4 : SCMEntry :=
  ⟨[some (i32Const 10), some (i32Const 11), some (i32Const 12), some (i32Const 13)], false⟩

/-- `exSt4` with the `<4 x i32>` argument already decomposed. -/
def exStResolved : PassState := { exSt4 with scm := [(.arg 0 (.vector 32 4), exEntry4)] }

/-- One input's contribution to the concatenated pre-shuffle array, as the
claim describes it: `w` unavailable slots for a wholly undefined input
(`none`), otherwise the `w` lanes of the input's resolved SCM entry. -/
def laneHalf (optE : Option SCMEntry) (w : Nat) : List (Option Val) :=
  match optE with
  | none => List.replicate w none
  | some e => (List.range w).map (fun i => some ((laneAt e i).getD junkVal))

/-- The claim's lane selection for a constant-mask shufflevector: for each
output lane take the mask-indexed entry of the concatenated availability
array, substituting a scalar undef for a negative or unavailable index. -/
def specShuffleLanes (avail : List (Option Val)) (mask : List Int) (w : Nat)
    (undefE : Val) : List Val :=
  (List.range w).map (fun i =>
    let m := mask.getD i (-1)
    if 0 ≤ m then
      match avail.getD m.toNat none with
      | some v => v
      | none => undefE
    else undefE)

/-- An undef `<2 x i32>` shuffle input. -/
def exShufB : Val := .const (.undef (.vector 32 2))

/-- A resolved two-lane SCM entry. -/
def exEntry2 : SCMEntry := ⟨[some (i32Const 20), some (i32Const 21)], false⟩

/-- `shufflevector <2 x i32> %v, <2 x i32> undef, mask <0,1,undef,undef>`. -/
def exShuffleInst : Instr := Instr.mk 7 (.vector 32 4) 0 (.shuffle exArgVec exShufB [0, 1, -1, -1])

/-- A state holding `exShuffleInst` with `%v` already decomposed. -/
def exStShuffle : PassState := ⟨[exShuffleInst], [(exArgVec, exEntry2)], [], [], [], [], 8, false⟩

/-- The reassembly chain the claim describes: `w` insertelement
instructions with consecutive fresh ids, starting from an undefined vector,
inserting lane `i` of the entry `e` at index `i`. -/
def chainInstrs (f0 : Nat) (vt : Typ) (locBB : Nat) (e : SCMEntry) (w : Nat) : List Instr :=
  (List.range w).map (fun i =>
    Instr.mk (f0 + i) vt locBB
      (.insertElem (if i = 0 then Val.const (.undef vt) else Val.inst (f0 + i - 1) vt)
        ((laneAt e i).getD junkVal) (i32Const i)))

/-- `%vec = add <2 x i32> %v, %v` (will be decomposed and removed). -/
def exVecInst : Instr := Instr.mk 1 (.vector 32 2) 0 (.binop 0 0 exArgVec exArgVec)

/-- A call consuming `%vec` whole. -/
def exCall : Instr := Instr.mk 2 .voidT 0 (.call (some (.otherIntr 5)) [.inst 1 (.vector 32 2)])

/-- The resolved, removed SCM entry of `%vec`. -/
def exEntryRm : SCMEntry := ⟨[some (i32Const 30), some (i32Const 31)], true⟩

/-- A post-traversal state in which `%vec` was decomposed (removed) and is
consumed whole by `exCall`. -/
def exStReassm : PassState :=
  ⟨[exVecInst, exCall], [(.inst 1 (.vector 32 2), exEntryRm)], [],
    [.inst 1 (.vector 32 2)], [1], [], 10, false⟩

/-- The pure fragment of `obtainScalarizedValues`: the lanes it returns
without touching the state — from a resolved SCM entry, a wholly undef
constant, or any other constant.  `none` when obtaining the value would
create placeholders or real extraction instructions. -/
def pureLanes (scm : List (Val × SCMEntry)) (v : Val) : Option (List Val) :=
  let width := widthOf (typeOf v)
  match lookupSCM scm v with
  | some e =>
      if entryResolved e then
        some ((List.range width).map (fun i => (laneAt e i).getD junkVal))
      else none
  | none =>
      if isUndefVal v then
        some (List.replicate width (Val.const (.undef (.scalar (elemKindOf (typeOf v))))))
      else
        match v with
        | .const c => some ((List.range width).map (fun i => Val.const (.extractElemC c i)))
        | _ => none

/-- Incoming values of the example PHI: a constant vector (from block 0)
and a later-defined vector instruction (from block 1). -/
def exPhiInc : List (Val × Nat) := [(.const (.vecC 32 [1, 2]), 0), (.inst 3 (.vector 32 2), 1)]

/-- A `<2 x i32>` PHI over `exPhiInc`. -/
def exPhi : Instr := Instr.mk 4 (.vector 32 2) 1 (.phi exPhiInc)

/-- The vector definition feeding the example PHI. -/
def exDef3 : Instr := Instr.mk 3 (.vector 32 2) 1 (.binop 0 0 exArgVec exArgVec)

/-- A state around the example PHI with the instruction incoming already
decomposed. -/
def exStPhi : PassState :=
  ⟨[exPhi, exDef3], [(.inst 3 (.vector 32 2), exEntry2)], [], [], [], [], 5, false⟩

/-- The per-incoming lane lists of the example PHI. -/
def exPhiLanes (p : Val × Nat) : List Val :=
  if p.1 = Val.const (.vecC 32 [1, 2]) then
    [Val.const (.extractElemC (.vecC 32 [1, 2]) 0), Val.const (.extractElemC (.vecC 32 [1, 2]) 1)]
  else [i32Const 20, i32Const 21]

/-- A purely scalar instruction: non-vector result type, non-vector
operands, and not one of the opcodes that always manipulate vectors. -/
def scalarOnlyInstrB (i : Instr) : Bool :=
  !(isVectorTy i.t) && (opVals i.op).all (fun v => !(isVectorTy (typeOf v))) &&
    (match i.op with
     | .extractElem _ _ => false
     | .insertElem _ _ _ => false
     | .shuffle _ _ _ => false
     | _ => true)

/-- The accumulator step of the re-scalarization loop of `drlFixup`
(named so the loop can be reasoned about one iteration at a time). -/
def fixStep (st1 : PassState) (target : Val) (vt : Typ) (e1 : SCMEntry)
    (scInit : Bool) (locId : Option Nat) (locBB : Nat)
    (acc : PassState × List Val) (i : Nat) : PassState × List Val :=
  if !scInit || isDummyLane st1 (laneAt e1 i) then
    let ee := Instr.mk acc.1.fresh (.scalar (elemKindOf vt)) locBB
        (.extractElem target (i32Const i))
    ({ acc.1 with body := insertBeforeId acc.1.body locId [ee],
                  fresh := acc.1.fresh + 1 }, acc.2 ++ [ee.val])
  else (acc.1, acc.2 ++ [(laneAt e1 i).getD junkVal])

/-- The accumulator step of the connection loop of `drlConnect`. -/
def conStep (dv : List Val) (e2 : SCMEntry) (acc : PassState) (i : Nat) : PassState :=
  let dummyVal := dv.getD i junkVal
  let scalarVal := (laneAt e2 i).getD junkVal
  { acc with body := rauwBody dummyVal scalarVal acc.body,
             unplaced :=
               match dummyVal with
               | .inst did _ => acc.unplaced.filter (fun u => u.id ≠ did)
               | _ => acc.unplaced }

/-- A value an SCM lane of a DRL target can hold right after one entry's
re-scalarization: the junk stand-in, a freshly created extraction, or a lane
kept because it was not a placeholder (and was already stored for the
target). -/
def cleanLane (S st1 : PassState) (T v : Val) : Prop :=
  v = junkVal ∨
    (∃ nid, S.fresh ≤ nid ∧ ∃ dk, v = Val.inst nid (Typ.scalar dk)) ∨
    (isDummyValue st1 v = false ∧ some v ∈ scmLanesOf S T)

/-- The invariant threaded through the DRL-resolution loop: `pending` are
the entries still to resolve, `done` the placeholders of entries already
resolved.  Pending entries keep the well-formedness the traversal
established (shape, backing, ordering), while the placeholders already
processed are gone from the body's operands and from the unplaced set, and
never reappear in an unresolved target's lanes. -/
structure ResInv (S : PassState) (pending : List DRLEntry) (done : List Val) : Prop where
  targets : ∀ e ∈ pending, ∃ vid k w,
      e.unresolvedInst = Val.inst vid (Typ.vector k w) ∧ e.dummyVals.length = w
  unplaced_dummy : ∀ u ∈ S.unplaced, ∃ pk, u.op = Op.load (Val.const (Const.nullPtr pk))
  pend_shape : ∀ d ∈ pending.flatMap (fun e => e.dummyVals),
      ∃ did dk, d = Val.inst did (Typ.scalar dk) ∧ did < S.fresh
  pend_backed : ∀ d ∈ pending.flatMap (fun e => e.dummyVals),
      ∃ u ∈ S.unplaced, u.id = valId d
  pend_not_body : ∀ d ∈ pending.flatMap (fun e => e.dummyVals),
      ∀ bi ∈ S.body, bi.id ≠ valId d
  pd_nodup : ((pending.flatMap (fun e => e.dummyVals)).map valId).Nodup
  pd_done_disj : ∀ d ∈ pending.flatMap (fun e => e.dummyVals),
      ∀ d2 ∈ done, valId d ≠ valId d2
  done_shape : ∀ d ∈ done, ∃ did dk, d = Val.inst did (Typ.scalar dk) ∧ did < S.fresh
  done_clean : ∀ d ∈ done, ¬ usedInBody S.body d
  done_unplaced : ∀ d ∈ done, ∀ u ∈ S.unplaced, u.id ≠ valId d
  done_not_body : ∀ d ∈ done, ∀ bi ∈ S.body, bi.id ≠ valId d
  done_scm : ∀ d ∈ done, ∀ e ∈ pending, some d ∉ scmLanesOf S e.unresolvedInst
  ordered : ∀ i j, j ≤ i → i < pending.length →
      ∀ d ∈ (pending.getD j ⟨junkVal, []⟩).dummyVals,
        some d ∉ scmLanesOf S ((pending.getD i ⟨junkVal, []⟩).unresolvedInst)

/-- A `<2 x i32>` forward-referenced instruction (the DRL target). -/
def exDrlTarget : Val := .inst 1 (.vector 32 2)

/-- The two placeholders handed out for the target's lanes. -/
def exD7 : Val := .inst 7 (.scalar 32)

def exD8 : Val := .inst 8 (.scalar 32)

/-- The unplaced dummy loads backing the two placeholders. -/
def exDum7 : Instr := Instr.mk 7 (.scalar 32) 0 (.load (.const (.nullPtr 32)))

def exDum8 : Instr := Instr.mk 8 (.scalar 32) 0 (.load (.const (.nullPtr 32)))

/-- A state entering DRL resolution: the target is in the body, its SCM
entry is still unresolved, one DRL entry records the two placeholders, and
a scalar add consumes them. -/
def exStDrl : PassState :=
  ⟨[Instr.mk 1 (.vector 32 2) 0 (.otherOp []),
    Instr.mk 2 (.scalar 32) 0 (.binop 0 0 exD7 exD8)],
   [(exDrlTarget, ⟨[none], false⟩)],
   [⟨exDrlTarget, [exD7, exD8]⟩],
   [], [], [exDum7, exDum8], 9, false⟩

/-! ## Helper lemmas -/

@[simp]
theorem getSCMEntryState_body (st : PassState) (v : Val) :
    (getSCMEntryState st v).body = st.body := by
  unfold getSCMEntryState; split <;> rfl

@[simp]
theorem getSCMEntryState_fresh (st : PassState) (v : Val) :
    (getSCMEntryState st v).fresh = st.fresh := by
  unfold getSCMEntryState; split <;> rfl

@[simp]
theorem getSCMEntryState_unplaced (st : PassState) (v : Val) :
    (getSCMEntryState st v).unplaced = st.unplaced := by
  unfold getSCMEntryState; split <;> rfl

@[simp]
theorem getSCMEntryState_drl (st : PassState) (v : Val) :
    (getSCMEntryState st v).drl = st.drl := by
  unfold getSCMEntryState; split <;> rfl

@[simp]
theorem getSCMEntryState_usedVectors (st : PassState) (v : Val) :
    (getSCMEntryState st v).usedVectors = st.usedVectors := by
  unfold getSCMEntryState; split <;> rfl

@[simp]
theorem getSCMEntryState_removedInsts (st : PassState) (v : Val) :
    (getSCMEntryState st v).removedInsts = st.removedInsts := by
  unfold getSCMEntryState; split <;> rfl

@[simp]
theorem scmUpdate_body (st : PassState) (v : Val) (vals : List Val) (rm : Bool) :
    (scmUpdate st v vals rm).body = st.body := rfl

@[simp]
theorem scmUpdate_fresh (st : PassState) (v : Val) (vals : List Val) (rm : Bool) :
    (scmUpdate st v vals rm).fresh = st.fresh := rfl

@[simp]
theorem scmUpdate_unplaced (st : PassState) (v : Val) (vals : List Val) (rm : Bool) :
    (scmUpdate st v vals rm).unplaced = st.unplaced := rfl

@[simp]
theorem scmUpdate_drl (st : PassState) (v : Val) (vals : List Val) (rm : Bool) :
    (scmUpdate st v vals rm).drl = st.drl := rfl

@[simp]
theorem scmUpdate_removedInsts (st : PassState) (v : Val) (vals : List Val) (rm : Bool) :
    (scmUpdate st v vals rm).removedInsts = st.removedInsts := rfl

/-- The constant flag returned by `obtainScalarizedValues` is exactly
`isa<Constant>` of the value. -/
theorem obtain_flag (st : PassState) (v : Val) :
    (obtainScalarizedValues st v).2.1 = isConstVal v := by
  unfold obtainScalarizedValues
  dsimp only
  split_ifs <;> rfl

/-- `obtainScalarizedValues` on a constant never changes the state (its
lanes are cached entries, scalar undefs, or constant expressions). -/
theorem obtain_const_state (v : Val) (h : isConstVal v = true) (st : PassState) :
    (obtainScalarizedValues st v).2.2 = st := by
  unfold obtainScalarizedValues
  dsimp only
  cases v with
  | const c => split_ifs <;> rfl
  | inst id t => simp [isConstVal] at h
  | arg n t => simp [isConstVal] at h

/-- `obtainScalarizedValues` on a value with a resolved SCM entry returns
the entry's lanes and leaves the state unchanged. -/
theorem obtain_resolved (st : PassState) (v : Val) (e : SCMEntry)
    (he : lookupSCM st.scm v = some e) (hr : entryResolved e = true) :
    obtainScalarizedValues st v =
      ((List.range (widthOf (typeOf v))).map (fun i => (laneAt e i).getD junkVal),
        isConstVal v, st) := by
  unfold obtainScalarizedValues
  simp [he, hr]

/-! ## The claims -/

/-- C10: dispatching an instruction that is already in the removed set is a
no-op: the state (function body, SCM, DRL, used-whole set, removed set) is
returned unchanged, so each instruction is decomposed at most once per
run. -/
theorem c10_dispatch_removed_noop (st : PassState) (i : Instr)
    (h : i.id ∈ st.removedInsts) :
    dispatchInstructionToScalarize st i = st := by
  unfold dispatchInstructionToScalarize
  simp [h]

/-- Witness for C10 at a concrete state whose removed set holds the
dispatched instruction. -/
theorem c10_witness :
    dispatchInstructionToScalarize { exSt4 with removedInsts := [1] } exEE4
      = { exSt4 with removedInsts := [1] } :=
  c10_dispatch_removed_noop _ _ (by decide)

/-- C1 (amended): the pass's run entry point returns `false` exactly for
the functions it skips (declarations when function control is not
force-inline, non-void-returning functions when it is); for every function
it actually processes it returns `true` unconditionally — even when no
instruction was added or removed. -/
theorem c1_run_returns_true_when_processed (fi sl : Bool) (F : Func)
    (h : (fi = false ∧ F.isDecl = false) ∨ (fi = true ∧ F.retVoid = true)) :
    (runOnFunction fi sl F).2 = true := by
  unfold runOnFunction
  rcases h with ⟨h1, h2⟩ | ⟨h1, h2⟩ <;> simp [h1, h2, processFunction]

/-- Witness for C1 (amended) on a concrete processed function. -/
theorem c1_witness : (runOnFunction false false scalarOnlyFunc).2 = true :=
  c1_run_returns_true_when_processed false false scalarOnlyFunc (by decide)

/-- C1 counterexample: a function containing no vector instruction is left
unchanged by the pass, yet the run entry point returns `true` — so the
returned boolean is not `true` if and only if the function was modified. -/
theorem c1_counterexample :
    (runOnFunction false false scalarOnlyFunc).2 = true ∧
    (runOnFunction false false scalarOnlyFunc).1 = scalarOnlyFunc := by decide

/-- C2: the lane invariant — every resolved SCM entry has exactly
`width(type(owner))` lanes and no null lane — is preserved by both
operations that write an SCM entry: `getSCMEntry` (which writes an
unresolved entry) and `updateSCMEntryWithValues` (which resizes the lane
list to the owner's width and fills every lane with a non-null value). -/
theorem c2_lane_invariant_preserved (st : PassState) (v : Val) (vals : List Val)
    (rm : Bool) (h : scmLaneInvariant st) :
    scmLaneInvariant (getSCMEntryState st v) ∧ scmLaneInvariant (scmUpdate st v vals rm) := by
  constructor
  · intro p hp hres
    unfold getSCMEntryState at hp
    rcases hl : lookupSCM st.scm v with _ | e
    · rw [hl] at hp
      simp only [List.mem_append, List.mem_singleton] at hp
      rcases hp with hp | hp
      · exact h p hp hres
      · subst hp
        simp [entryResolved, laneAt] at hres
    · rw [hl] at hp
      exact h p hp hres
  · intro p hp hres
    unfold scmUpdate setSCM at hp
    simp only [List.mem_map] at hp
    obtain ⟨q, hq, hpe⟩ := hp
    by_cases hqv : q.1 = v
    · rw [if_pos hqv] at hpe
      subst hpe
      constructor
      · simp
      · intro o ho
        simp at ho
        obtain ⟨i, _, rfl⟩ := ho
        rfl
    · rw [if_neg hqv] at hpe
      subst hpe
      exact h q hq hres

/-- Witness for C2 on a concrete state, value and lane list. -/
theorem c2_witness :
    scmLaneInvariant (getSCMEntryState exSt4 exArgVec) ∧
    scmLaneInvariant (scmUpdate exSt4 exArgVec [junkVal, junkVal] true) :=
  c2_lane_invariant_preserved exSt4 exArgVec [junkVal, junkVal] true
    (by intro p hp _; simp [exSt4] at hp)

/-- C6: decomposing a vector binary instruction whose two operands are both
constants introduces zero new instructions: the body, the unplaced-
instruction list and the fresh-id counter are all unchanged (the per-lane
values would be constant expressions, and the rewrite is skipped before any
scalar copy of the operation is created). -/
theorem c6_binop_constant_shortcircuit (st : PassState) (bi : Instr)
    (kind flags : Nat) (a b : Val) (hop : bi.op = .binop kind flags a b)
    (ha : isConstVal a = true) (hb : isConstVal b = true) :
    (scalarizeBinaryOperator st bi).body = st.body ∧
    (scalarizeBinaryOperator st bi).unplaced = st.unplaced ∧
    (scalarizeBinaryOperator st bi).fresh = st.fresh := by
  unfold scalarizeBinaryOperator
  rw [hop]
  cases ht : bi.t with
  | vector ek w =>
      simp only [obtain_flag, ha, hb, Bool.and_self, if_true,
        obtain_const_state b hb, obtain_const_state a ha,
        getSCMEntryState_body, getSCMEntryState_unplaced, getSCMEntryState_fresh]
      exact ⟨trivial, trivial, trivial⟩
  | scalar k => exact ⟨rfl, rfl, rfl⟩
  | pointerTo k => exact ⟨rfl, rfl, rfl⟩
  | voidT => exact ⟨rfl, rfl, rfl⟩
  | opaqueT k => exact ⟨rfl, rfl, rfl⟩

/-- Witness for C6 on a concrete vector add of two constant vectors. -/
theorem c6_witness :
    (scalarizeBinaryOperator exSt4
        (Instr.mk 9 (.vector 32 2) 0
          (.binop 0 0 (.const (.vecC 32 [1, 2])) (.const (.vecC 32 [3, 4]))))).body
      = exSt4.body ∧
    (scalarizeBinaryOperator exSt4
        (Instr.mk 9 (.vector 32 2) 0
          (.binop 0 0 (.const (.vecC 32 [1, 2])) (.const (.vecC 32 [3, 4]))))).unplaced
      = exSt4.unplaced ∧
    (scalarizeBinaryOperator exSt4
        (Instr.mk 9 (.vector 32 2) 0
          (.binop 0 0 (.const (.vecC 32 [1, 2])) (.const (.vecC 32 [3, 4]))))).fresh
      = exSt4.fresh :=
  c6_binop_constant_shortcircuit exSt4 _ 0 0 _ _ rfl rfl rfl


/-- `getD` of a map over `List.range`. -/
theorem rangeMap_getD {α : Type} (f : Nat → α) (w n : Nat) (d : α) (h : n < w) :
    ((List.range w).map f).getD n d = f n := by
  simp [List.getD, List.getElem?_map, List.getElem?_range h]

/-- The state fields that recovery's used-whole fold never touches. -/
theorem recover_fold_fields (l : List Val) (st : PassState) :
    (l.foldl (fun acc v =>
        if isVectorTy (typeOf v) then obtainVectorValueWhichMightBeScalarized acc v
        else acc) st).body = st.body ∧
    (l.foldl (fun acc v =>
        if isVectorTy (typeOf v) then obtainVectorValueWhichMightBeScalarized acc v
        else acc) st).removedInsts = st.removedInsts ∧
    (l.foldl (fun acc v =>
        if isVectorTy (typeOf v) then obtainVectorValueWhichMightBeScalarized acc v
        else acc) st).fresh = st.fresh ∧
    (l.foldl (fun acc v =>
        if isVectorTy (typeOf v) then obtainVectorValueWhichMightBeScalarized acc v
        else acc) st).unplaced = st.unplaced ∧
    (l.foldl (fun acc v =>
        if isVectorTy (typeOf v) then obtainVectorValueWhichMightBeScalarized acc v
        else acc) st).scm = st.scm ∧
    (l.foldl (fun acc v =>
        if isVectorTy (typeOf v) then obtainVectorValueWhichMightBeScalarized acc v
        else acc) st).drl = st.drl := by
  induction l generalizing st with
  | nil => exact ⟨rfl, rfl, rfl, rfl, rfl, rfl⟩
  | cons x xs ih =>
      simp only [List.foldl_cons]
      rcases ih (if isVectorTy (typeOf x) then obtainVectorValueWhichMightBeScalarized st x
        else st) with ⟨h1, h2, h3, h4, h5, h6⟩
      refine ⟨?_, ?_, ?_, ?_, ?_, ?_⟩ <;>
        (first
          | (rw [h1]; split <;> rfl)
          | (rw [h2]; split <;> rfl)
          | (rw [h3]; split <;> rfl)
          | (rw [h4]; split <;> rfl)
          | (rw [h5]; split <;> rfl)
          | (rw [h6]; split <;> rfl))

/-- C4 counterexample: processing `%e = extractelement <4 x i32> %v, i32 2`
when the source `%v` (an argument) has no decomposition yet emits four new
extraction instructions into the function body - the claim that no new
instruction is emitted for a constant-index extractelement fails. -/
theorem c4_counterexample :
    (scalarizeExtractElement exSt4 exEE4).body.length = 5 ∧ exSt4.body.length = 1 := by
  decide

/-- C4 (amended): a constant-index extractelement is eliminated - every use
is replaced by the corresponding lane of the source's decomposition and the
instruction is marked removed - and no new instruction is emitted provided
the source's decomposition is already available (a resolved SCM entry); when
the source has no decomposition yet, the SCM resolution step itself
synthesizes per-lane values (real extraction instructions, or unplaced
placeholders for forward references).  A non-constant index leaves the
instruction intact and only registers the source as used-whole
(Recovery). -/
theorem c4_extractelement_behavior (st : PassState) (ei : Instr) (v idxv : Val)
    (hop : ei.op = .extractElem v idxv) :
    (isConstIntVal idxv = false → isVectorTy (typeOf v) = true →
      isVectorTy (typeOf idxv) = false →
      (scalarizeExtractElement st ei).body = st.body ∧
      (scalarizeExtractElement st ei).removedInsts = st.removedInsts ∧
      (scalarizeExtractElement st ei).usedVectors = insertUnique st.usedVectors v) ∧
    (∀ e : SCMEntry, isConstIntVal idxv = true →
      lookupSCM st.scm v = some e → entryResolved e = true →
      constIntNat idxv < widthOf (typeOf v) →
      (scalarizeExtractElement st ei).body =
        rauwBody ei.val ((laneAt e (constIntNat idxv)).getD junkVal) st.body ∧
      (scalarizeExtractElement st ei).removedInsts = insertRemoved st.removedInsts ei.id ∧
      (scalarizeExtractElement st ei).fresh = st.fresh ∧
      (scalarizeExtractElement st ei).unplaced = st.unplaced) := by
  constructor
  · intro hci hv hi
    unfold scalarizeExtractElement
    rw [hop]
    dsimp only
    rw [if_pos (by simp [hci])]
    unfold recoverNonScalarizableInst
    rw [hop]
    dsimp only
    simp only [opVals, List.foldl_cons, List.foldl_nil, hv, hi, if_true, Bool.false_eq_true,
      if_false, obtainVectorValueWhichMightBeScalarized]
    split <;> simp

  · intro e hci he hr hn
    have hobt := obtain_resolved st v e he hr
    unfold scalarizeExtractElement
    rw [hop]
    dsimp only
    rw [if_neg (by simp [hci])]
    rw [hobt]
    dsimp only
    rw [rangeMap_getD _ _ _ _ hn]
    exact ⟨rfl, rfl, rfl, rfl⟩

/-- Witness for C4 (amended) at a concrete resolved source. -/
theorem c4_witness :
    (scalarizeExtractElement exStResolved exEE4).body =
      rauwBody exEE4.val ((laneAt exEntry4 (constIntNat (i32Const 2))).getD junkVal)
        exStResolved.body ∧
    (scalarizeExtractElement exStResolved exEE4).removedInsts =
      insertRemoved exStResolved.removedInsts exEE4.id ∧
    (scalarizeExtractElement exStResolved exEE4).fresh = exStResolved.fresh ∧
    (scalarizeExtractElement exStResolved exEE4).unplaced = exStResolved.unplaced :=
  (c4_extractelement_behavior exStResolved exEE4 _ _ rfl).2 exEntry4 rfl (by decide)
    (by decide) (by decide)


/-- `getElem?` through `writeSlice`. -/
theorem writeSlice_getElem? (l : List (Option Val)) (off : Nat) (vals : List Val) (j : Nat) :
    (writeSlice l off vals)[j]? =
      l[j]?.map (fun x =>
        if off ≤ j ∧ j < off + vals.length then some (vals.getD (j - off) junkVal) else x) := by
  unfold writeSlice
  rw [List.getElem?_map, List.getElem?_enum]
  cases l[j]? <;> rfl

/-- Writing `w` lanes at offset 0 into a `w + w'` all-null array. -/
theorem writeSlice_replicate_left (w w' : Nat) (la : List Val) (hla : la.length = w) :
    writeSlice (List.replicate (w + w') (none : Option Val)) 0 la =
      la.map some ++ List.replicate w' none := by
  apply List.ext_getElem?
  intro j
  rw [writeSlice_getElem?]
  have hj : la[j]? = if h : j < la.length then some la[j] else none := by
    split
    · exact List.getElem?_eq_getElem (by omega)
    · exact List.getElem?_eq_none (by omega)
  by_cases h1 : j < w
  · rw [List.getElem?_replicate_of_lt (by omega)]
    rw [List.getElem?_append_left (by simp [hla, h1])]
    rw [List.getElem?_map, hj]
    rw [dif_pos (by omega)]
    simp [hla, h1, List.getD_eq_getElem?_getD, List.getElem?_eq_getElem (show j < la.length by omega)]
  · by_cases h2 : j < w + w'
    · rw [List.getElem?_replicate_of_lt h2]
      rw [List.getElem?_append_right (by simp [hla]; omega)]
      simp [hla, h1, List.getElem?_replicate_of_lt (show j - w < w' by omega)]
    · rw [List.getElem?_eq_none (by simp; omega)]
      rw [List.getElem?_eq_none (by simp [hla]; omega)]
      rfl

/-- Writing `w` lanes at offset `front.length` over an all-null back
half. -/
theorem writeSlice_append_right (w : Nat) (front : List (Option Val)) (lb : List Val)
    (hf : front.length = w) (hlb : lb.length = w) :
    writeSlice (front ++ List.replicate w (none : Option Val)) w lb =
      front ++ lb.map some := by
  apply List.ext_getElem?
  intro j
  rw [writeSlice_getElem?]
  by_cases h1 : j < w
  · rw [List.getElem?_append_left (by omega)]
    rw [List.getElem?_append_left (by omega)]
    cases hj : front[j]? with
    | none => rfl
    | some x => simp [hlb]; omega
  · by_cases h2 : j < w + w
    · rw [List.getElem?_append_right (by omega)]
      rw [List.getElem?_append_right (by omega)]
      rw [hf]
      rw [List.getElem?_replicate_of_lt (show j - w < w by omega)]
      rw [List.getElem?_map]
      rw [List.getElem?_eq_getElem (show j - w < lb.length by omega)]
      simp [hlb, h1, h2, List.getD_eq_getElem?_getD,
        List.getElem?_eq_getElem (show j - w < lb.length by omega)]
    · rw [List.getElem?_eq_none (by simp [hf]; omega)]
      rw [List.getElem?_eq_none (by simp [hf, hlb]; omega)]
      rfl


/-- After `getSCMEntry`, the key is present. -/
theorem lookupSCM_isSome_getSCMEntryState (st : PassState) (v : Val) :
    (lookupSCM (getSCMEntryState st v).scm v).isSome := by
  unfold getSCMEntryState
  cases h : lookupSCM st.scm v with
  | some e => simp [h]
  | none =>
      dsimp only
      unfold lookupSCM at h ⊢
      rw [List.find?_append]
      simp [h]

/-- Overwriting a present key makes it the looked-up entry. -/
theorem lookupSCM_setSCM_self (scm : List (Val × SCMEntry)) (v : Val) (e : SCMEntry)
    (h : (lookupSCM scm v).isSome) :
    lookupSCM (setSCM scm v e) v = some e := by
  induction scm with
  | nil => simp [lookupSCM] at h
  | cons p ps ih =>
      unfold lookupSCM setSCM at *
      by_cases hp : p.1 = v
      · simp [hp]
      · simp only [List.map_cons, if_neg hp]
        rw [List.find?_cons_of_neg _ (by simp [hp])]
        rw [List.find?_cons_of_neg _ (by simp [hp])] at h
        exact ih h

/-- Other keys are untouched by `setSCM`. -/
theorem lookupSCM_setSCM_other (scm : List (Val × SCMEntry)) (v w : Val) (e : SCMEntry)
    (hvw : w ≠ v) :
    lookupSCM (setSCM scm v e) w = lookupSCM scm w := by
  induction scm with
  | nil => rfl
  | cons p ps ih =>
      unfold lookupSCM setSCM at *
      by_cases hp : p.1 = v
      · rw [List.map_cons, if_pos hp]
        rw [List.find?_cons_of_neg _ (by simp [Ne.symm hvw])]
        rw [List.find?_cons_of_neg _ (by rw [hp]; simp [Ne.symm hvw])]
        exact ih
      · rw [List.map_cons, if_neg hp]
        by_cases hw : p.1 = w
        · rw [List.find?_cons_of_pos _ (by simp [hw])]
          rw [List.find?_cons_of_pos _ (by simp [hw])]
        · rw [List.find?_cons_of_neg _ (by simp [hw])]
          rw [List.find?_cons_of_neg _ (by simp [hw])]
          exact ih

/-- A map over the range of a list's length, applied to `getD`, is a map
over the list. -/
theorem range_getD_map {b : Type} (l : List Val) (d : Val) (f : Val → b) :
    (List.range l.length).map (fun i => f (l.getD i d)) = l.map f := by
  apply List.ext_getElem?
  intro j
  rw [List.getElem?_map, List.getElem?_map]
  by_cases hj : j < l.length
  · rw [List.getElem?_range hj, List.getElem?_eq_getElem hj]
    simp [List.getD_eq_getElem?_getD, List.getElem?_eq_getElem hj]
  · rw [List.getElem?_eq_none (by simpa using hj), List.getElem?_eq_none (by omega)]
    rfl


/-- `laneHalf` always has `w` slots. -/
theorem laneHalf_length (optE : Option SCMEntry) (w : Nat) : (laneHalf optE w).length = w := by
  cases optE <;> simp [laneHalf]

/-- C5: for a shufflevector with a constant mask whose non-undef inputs are
already decomposed, the recorded decomposition of the result has exactly the
claimed lanes: output lane `i` is entry `mask[i]` of the concatenation of
the two inputs' lane decompositions, with a scalar undef substituted
whenever `mask[i]` is negative or indexes an unavailable entry (a lane of a
wholly undefined input); the original shufflevector is always eliminated
(marked removed), and no new instruction is emitted in this situation. -/
theorem c5_shuffle_lanes (st : PassState) (si : Instr) (a b : Val) (mask : List Int)
    (optA optB : Option SCMEntry)
    (hop : si.op = .shuffle a b mask)
    (hw : typeOf b = typeOf a)
    (hA : match optA with
          | none => isUndefVal a = true
          | some e => isUndefVal a = false ∧ lookupSCM st.scm a = some e ∧ entryResolved e = true)
    (hB : match optB with
          | none => isUndefVal b = true
          | some e =>
              isUndefVal b = false ∧ lookupSCM st.scm b = some e ∧ entryResolved e = true) :
    lookupSCM (scalarizeShuffle st si).scm si.val =
      some ⟨(specShuffleLanes
          (laneHalf optA (widthOf (typeOf a)) ++ laneHalf optB (widthOf (typeOf a)))
          mask (widthOf si.t)
          (Val.const (.undef (.scalar (elemKindOf (typeOf a)))))).map some, true⟩ ∧
    (scalarizeShuffle st si).removedInsts = insertRemoved st.removedInsts si.id ∧
    (scalarizeShuffle st si).body = st.body := by
  unfold scalarizeShuffle
  rw [hop]
  dsimp only
  have hs1 :
      (if (!isUndefVal a) = true then
        let r := obtainScalarizedValues st a
        (writeSlice (List.replicate (2 * widthOf (typeOf a)) none) 0 r.1, r.2.2)
      else (List.replicate (2 * widthOf (typeOf a)) (none : Option Val), st))
      = (laneHalf optA (widthOf (typeOf a)) ++
          List.replicate (widthOf (typeOf a)) (none : Option Val), st) := by
    cases optA with
    | none =>
        rw [if_neg (by simp [hA])]
        rw [two_mul, List.replicate_add]
        rfl
    | some ea =>
        rcases hA with ⟨hAu, hAl, hAr⟩
        rw [if_pos (by simp [hAu])]
        rw [obtain_resolved st a ea hAl hAr]
        dsimp only
        rw [two_mul]
        rw [writeSlice_replicate_left _ _ _ (by simp)]
        rw [laneHalf]
        rw [List.map_map]
        rfl
  rw [hs1]
  dsimp only
  have hs2 :
      (if (!isUndefVal b) = true then
        let r := obtainScalarizedValues st b
        (writeSlice (laneHalf optA (widthOf (typeOf a)) ++
            List.replicate (widthOf (typeOf a)) (none : Option Val))
          (widthOf (typeOf a)) r.1, r.2.2)
      else (laneHalf optA (widthOf (typeOf a)) ++
          List.replicate (widthOf (typeOf a)) (none : Option Val), st))
      = (laneHalf optA (widthOf (typeOf a)) ++ laneHalf optB (widthOf (typeOf a)), st) := by
    cases optB with
    | none =>
        rw [if_neg (by simp [hB])]
        rfl
    | some eb =>
        rcases hB with ⟨hBu, hBl, hBr⟩
        rw [if_pos (by simp [hBu])]
        rw [obtain_resolved st b eb hBl hBr]
        dsimp only
        rw [writeSlice_append_right _ _ _ (laneHalf_length _ _) (by simp [hw])]
        rw [laneHalf]
        rw [List.map_map]
        rw [hw]
        rfl
  rw [hs2]
  dsimp only
  refine ⟨?_, ?_, ?_⟩
  · rw [scmUpdate]
    dsimp only [Instr.val, typeOf]
    rw [lookupSCM_setSCM_self _ _ _ (lookupSCM_isSome_getSCMEntryState _ _)]
    congr 1
    congr 1
    rw [specShuffleLanes]
    rw [List.map_map]
    apply List.map_congr_left
    intro i hi
    rw [List.mem_range] at hi
    rw [rangeMap_getD _ _ _ _ (by exact hi)]
    rfl
  · simp
  · simp


/-- Witness for C5 on the spec's scenario:
`shufflevector <2 x i32> %x, <2 x i32> undef, mask <0,1,undef,undef>`. -/
theorem c5_witness :
    lookupSCM (scalarizeShuffle exStShuffle exShuffleInst).scm exShuffleInst.val =
      some ⟨(specShuffleLanes
          (laneHalf (some exEntry2) (widthOf (typeOf exArgVec)) ++
            laneHalf none (widthOf (typeOf exArgVec)))
          [0, 1, -1, -1] (widthOf exShuffleInst.t)
          (Val.const (.undef (.scalar (elemKindOf (typeOf exArgVec)))))).map some, true⟩ ∧
    (scalarizeShuffle exStShuffle exShuffleInst).removedInsts =
      insertRemoved exStShuffle.removedInsts exShuffleInst.id ∧
    (scalarizeShuffle exStShuffle exShuffleInst).body = exStShuffle.body :=
  c5_shuffle_lanes exStShuffle exShuffleInst exArgVec exShufB [0, 1, -1, -1]
    (some exEntry2) none rfl rfl (by decide) (by decide)


/-- `takeWhile` walks through a prefix all of whose elements satisfy the
predicate. -/
theorem takeWhile_append_all {α : Type} (p : α → Bool) (l1 l2 : List α)
    (h : ∀ a ∈ l1, p a = true) :
    (l1 ++ l2).takeWhile p = l1 ++ l2.takeWhile p := by
  induction l1 with
  | nil => rfl
  | cons x xs ih =>
      rw [List.cons_append, List.takeWhile_cons, h x (by simp), if_pos rfl,
        ih (fun a ha => h a (by simp [ha])), List.cons_append]

/-- `dropWhile` drops a prefix all of whose elements satisfy the
predicate. -/
theorem dropWhile_append_all {α : Type} (p : α → Bool) (l1 l2 : List α)
    (h : ∀ a ∈ l1, p a = true) :
    (l1 ++ l2).dropWhile p = l2.dropWhile p := by
  induction l1 with
  | nil => rfl
  | cons x xs ih =>
      rw [List.cons_append, List.dropWhile_cons, h x (by simp), if_pos rfl]
      exact ih (fun a ha => h a (by simp [ha]))

/-- The head of a `dropWhile` residue fails the predicate, so a further
`takeWhile` takes nothing. -/
theorem takeWhile_dropWhile_nil {α : Type} (p : α → Bool) (l : List α) :
    (l.dropWhile p).takeWhile p = [] := by
  induction l with
  | nil => rfl
  | cons x xs ih =>
      rw [List.dropWhile_cons]
      by_cases hx : p x = true
      · rw [if_pos hx]; exact ih
      · rw [if_neg hx, List.takeWhile_cons]
        simp only [Bool.not_eq_true] at hx
        rw [hx]
        rfl

/-- `dropWhile` is idempotent. -/
theorem dropWhile_dropWhile {α : Type} (p : α → Bool) (l : List α) :
    (l.dropWhile p).dropWhile p = l.dropWhile p := by
  induction l with
  | nil => rfl
  | cons x xs ih =>
      rw [List.dropWhile_cons]
      by_cases hx : p x = true
      · rw [if_pos hx]; exact ih
      · rw [if_neg hx, List.dropWhile_cons]
        simp only [Bool.not_eq_true] at hx
        rw [hx]
        rfl

/-- Core of the insertion-composition argument, over the split body. -/
theorem insert_compose_core {α : Type} (p : α → Bool) (body xs ys : List α)
    (hxs : ∀ x ∈ xs, p x = true) :
    ((((body.takeWhile p ++ xs) ++ body.dropWhile p).takeWhile p ++ ys) ++
      ((body.takeWhile p ++ xs) ++ body.dropWhile p).dropWhile p)
    = ((body.takeWhile p ++ (xs ++ ys)) ++ body.dropWhile p) := by
  have h12 : ∀ a ∈ body.takeWhile p ++ xs, p a = true := by
    intro a ha
    rcases List.mem_append.mp ha with ha | ha
    · exact List.mem_takeWhile_imp ha
    · exact hxs a ha
  rw [takeWhile_append_all _ _ _ h12, dropWhile_append_all _ _ _ h12]
  rw [takeWhile_dropWhile_nil, dropWhile_dropWhile]
  simp [List.append_assoc]

/-- Consecutive insertions before one position compose into a single
insertion of the concatenated list (the inserted instructions never carry
the position's id). -/
theorem insertBeforeId_insertBeforeId (body xs ys : List Instr) (locId : Option Nat)
    (h : ∀ x ∈ xs, ∀ lid, locId = some lid → x.id ≠ lid) :
    insertBeforeId (insertBeforeId body locId xs) locId ys
      = insertBeforeId body locId (xs ++ ys) := by
  cases locId with
  | none => simp [insertBeforeId, List.append_assoc]
  | some lid =>
      unfold insertBeforeId
      dsimp only
      exact insert_compose_core _ body xs ys (fun x hx => by simp [h x hx lid rfl])

/-- Inserting nothing changes nothing. -/
theorem insertBeforeId_nil (body : List Instr) (locId : Option Nat) :
    insertBeforeId body locId [] = body := by
  cases locId with
  | none => simp [insertBeforeId]
  | some lid =>
      unfold insertBeforeId
      dsimp only
      rw [List.append_nil]
      exact List.takeWhile_append_dropWhile _ _


/-- `chainInstrs` unfolds one step at the top. -/
theorem chainInstrs_succ (f0 : Nat) (vt : Typ) (locBB : Nat) (e : SCMEntry) (n : Nat) :
    chainInstrs f0 vt locBB e (n + 1) =
      chainInstrs f0 vt locBB e n ++
        [Instr.mk (f0 + n) vt locBB
          (.insertElem (if n = 0 then Val.const (.undef vt) else Val.inst (f0 + n - 1) vt)
            ((laneAt e n).getD junkVal) (i32Const n))] := by
  unfold chainInstrs
  rw [List.range_succ, List.map_append]
  rfl

/-- Ids of the chain instructions. -/
theorem chainInstrs_ids (f0 : Nat) (vt : Typ) (locBB : Nat) (e : SCMEntry) (w : Nat) :
    ∀ x ∈ chainInstrs f0 vt locBB e w, f0 ≤ x.id := by
  intro x hx
  unfold chainInstrs at hx
  rw [List.mem_map] at hx
  obtain ⟨i, _, rfl⟩ := hx
  simp

/-- Closed form of the reassembly fold: it inserts the whole
`chainInstrs` list before the location and returns the last chain value
(or the undef start for a zero-width vector). -/
theorem chainFold_closed (st : PassState) (locId : Option Nat) (locBB : Nat) (vt : Typ)
    (e : SCMEntry) (w : Nat)
    (hloc : ∀ lid, locId = some lid → lid < st.fresh) :
    (List.range w).foldl (fun (acc : PassState × Val) i =>
        let ins := Instr.mk acc.1.fresh vt locBB
            (.insertElem acc.2 ((laneAt e i).getD junkVal) (i32Const i))
        ({ acc.1 with body := insertBeforeId acc.1.body locId [ins],
                      fresh := acc.1.fresh + 1 }, ins.val))
        (st, Val.const (.undef vt))
      = ({ st with body := insertBeforeId st.body locId (chainInstrs st.fresh vt locBB e w),
                   fresh := st.fresh + w },
         if w = 0 then Val.const (.undef vt) else Val.inst (st.fresh + w - 1) vt) := by
  induction w with
  | zero =>
      rw [if_pos rfl]
      show (st, Val.const (.undef vt)) = _
      rw [show chainInstrs st.fresh vt locBB e 0 = [] from rfl]
      rw [insertBeforeId_nil]
      rfl
  | succ n ih =>
      rw [List.range_succ, List.foldl_append, ih, List.foldl_cons, List.foldl_nil]
      dsimp only
      rw [insertBeforeId_insertBeforeId _ _ _ _
        (fun x hx lid hlid => by
          have h1 := chainInstrs_ids st.fresh vt locBB e n x hx
          have h2 := hloc lid hlid
          omega)]
      rw [← chainInstrs_succ]
      rw [if_neg (Nat.succ_ne_zero n)]
      constructor


/-- C7: for a used-whole vector value, reassembly makes no change when the
value is undef, unknown to the SCM, or its SCM entry does not mark the
original as removed.  When the entry does mark it removed, reassembly
inserts a chain of `width` insertelement instructions (starting from an
undefined vector, lanes in index order) at the original instruction's
position (after the PHI cluster if that position is a PHI), redirects all
remaining uses of the original to the reconstructed vector, and registers
the reconstructed vector as a fresh non-removed SCM entry with the same
lanes. -/
theorem c7_reassembly (st : PassState) (v : Val) :
    ((isUndefVal v = true ∨ lookupSCM st.scm v = none ∨
        (∃ e, lookupSCM st.scm v = some e ∧ e.isOriginalVectorRemoved = false)) →
      obtainVectorValueWhichMightBeScalarizedImpl st v = st) ∧
    (∀ e : SCMEntry, ∀ vid k w : Nat, lookupSCM st.scm v = some e →
      e.isOriginalVectorRemoved = true → v = Val.inst vid (Typ.vector k w) →
      0 < w →
      (∀ lid, reassemblyLocId st.body vid = some lid → lid < st.fresh) →
      (obtainVectorValueWhichMightBeScalarizedImpl st v).body =
        rauwBody v (Val.inst (st.fresh + w - 1) (Typ.vector k w))
          (insertBeforeId st.body (reassemblyLocId st.body vid)
            (chainInstrs st.fresh (Typ.vector k w)
              (bbOfLoc st.body (reassemblyLocId st.body vid)) e w)) ∧
      lookupSCM (obtainVectorValueWhichMightBeScalarizedImpl st v).scm
          (Val.inst (st.fresh + w - 1) (Typ.vector k w)) =
        some ⟨(List.range w).map (fun i => some ((laneAt e i).getD junkVal)), false⟩ ∧
      (obtainVectorValueWhichMightBeScalarizedImpl st v).fresh = st.fresh + w ∧
      (obtainVectorValueWhichMightBeScalarizedImpl st v).removedInsts = st.removedInsts) := by
  constructor
  · intro h
    unfold obtainVectorValueWhichMightBeScalarizedImpl
    by_cases hu : isUndefVal v = true
    · rw [if_pos hu]
    · rw [if_neg hu]
      rcases h with h | h | ⟨e, he, hrm⟩
      · exact absurd h hu
      · rw [h]
      · rw [he]
        dsimp only
        rw [if_pos hrm]
  · intro e vid k w hl hrm hv hw hloc
    subst hv
    unfold obtainVectorValueWhichMightBeScalarizedImpl
    rw [if_neg (by simp [isUndefVal])]
    rw [hl]
    dsimp only
    rw [if_neg (by simp [hrm])]
    dsimp only [widthOf]
    rw [chainFold_closed st (reassemblyLocId st.body vid)
      (bbOfLoc st.body (reassemblyLocId st.body vid)) (Typ.vector k w) e w hloc]
    dsimp only
    rw [if_neg (by omega)]
    refine ⟨by simp, ?_, ?_, ?_⟩
    · rw [scmUpdate]
      dsimp only [typeOf, widthOf]
      rw [lookupSCM_setSCM_self _ _ _ (lookupSCM_isSome_getSCMEntryState _ _)]
      congr 1
      congr 1
      apply List.map_congr_left
      intro i hi
      rw [List.mem_range] at hi
      rw [rangeMap_getD _ _ _ _ hi]
    · simp
    · simp

/-- Witness for C7 on a concrete removed vector add consumed whole by a
call. -/
theorem c7_witness :
    (obtainVectorValueWhichMightBeScalarizedImpl exStReassm (Val.inst 1 (Typ.vector 32 2))).body =
      rauwBody (Val.inst 1 (Typ.vector 32 2)) (Val.inst (exStReassm.fresh + 2 - 1) (Typ.vector 32 2))
        (insertBeforeId exStReassm.body (reassemblyLocId exStReassm.body 1)
          (chainInstrs exStReassm.fresh (Typ.vector 32 2)
            (bbOfLoc exStReassm.body (reassemblyLocId exStReassm.body 1)) exEntryRm 2)) ∧
    lookupSCM (obtainVectorValueWhichMightBeScalarizedImpl exStReassm
        (Val.inst 1 (Typ.vector 32 2))).scm
        (Val.inst (exStReassm.fresh + 2 - 1) (Typ.vector 32 2)) =
      some ⟨(List.range 2).map (fun i => some ((laneAt exEntryRm i).getD junkVal)), false⟩ ∧
    (obtainVectorValueWhichMightBeScalarizedImpl exStReassm
        (Val.inst 1 (Typ.vector 32 2))).fresh = exStReassm.fresh + 2 ∧
    (obtainVectorValueWhichMightBeScalarizedImpl exStReassm
        (Val.inst 1 (Typ.vector 32 2))).removedInsts = exStReassm.removedInsts :=
  (c7_reassembly exStReassm (Val.inst 1 (Typ.vector 32 2))).2 exEntryRm 1 32 2
    (by decide) (by decide) rfl (by decide)
    (by
      intro lid hlid
      have h1 : reassemblyLocId exStReassm.body 1 = some 1 := by decide
      rw [h1] at hlid
      injection hlid with h2
      subst h2
      decide)


/-- `obtainScalarizedValues` agrees with its pure fragment and leaves the
state unchanged whenever the pure fragment is defined. -/
theorem obtain_of_pureLanes (st : PassState) (v : Val) (ls : List Val)
    (h : pureLanes st.scm v = some ls) :
    obtainScalarizedValues st v = (ls, isConstVal v, st) := by
  unfold pureLanes at h
  dsimp only at h
  cases hl : lookupSCM st.scm v with
  | some e =>
      rw [hl] at h
      dsimp only at h
      cases hr : entryResolved e with
      | true =>
          rw [hr, if_pos rfl] at h
          injection h with h
          rw [obtain_resolved st v e hl hr, h]
      | false => rw [hr] at h; simp at h
  | none =>
      rw [hl] at h
      dsimp only at h
      unfold obtainScalarizedValues
      dsimp only
      rw [hl]
      rw [if_neg (by simp)]
      cases hu : isUndefVal v with
      | true =>
          rw [hu, if_pos rfl] at h
          injection h with h
          rw [if_pos rfl, h]
      | false =>
          rw [hu] at h
          simp only [Bool.false_eq_true, if_false] at h
          rw [if_neg (by simp)]
          cases v with
          | const c =>
              dsimp only at h
              injection h with h
              rw [if_pos (by rfl)]
              rw [← h]
          | inst id t => simp at h
          | arg n t => simp at h

/-- `posIn` misses absent elements. -/
theorem posIn_eq_none (l : List Nat) (x : Nat) (h : ∀ y ∈ l, y ≠ x) : posIn l x = none := by
  induction l with
  | nil => rfl
  | cons y ys ih =>
      unfold posIn
      rw [if_neg (h y (by simp))]
      rw [ih (fun z hz => h z (by simp [hz]))]
      rfl

/-- `posIn` over an append. -/
theorem posIn_append (l1 l2 : List Nat) (x : Nat) :
    posIn (l1 ++ l2) x =
      match posIn l1 x with
      | some i => some i
      | none => (posIn l2 x).map (· + l1.length) := by
  induction l1 with
  | nil => cases hp : posIn l2 x <;> simp [posIn, hp]
  | cons y ys ih =>
      rw [List.cons_append]
      rw [show posIn (y :: (ys ++ l2)) x
          = (if y = x then some 0 else (posIn (ys ++ l2) x).map (· + 1)) from rfl]
      rw [show posIn (y :: ys) x
          = (if y = x then some 0 else (posIn ys x).map (· + 1)) from rfl]
      by_cases hy : y = x
      · rw [if_pos hy, if_pos hy]
      · rw [if_neg hy, if_neg hy, ih]
        cases hys : posIn ys x with
        | some i => simp [hys]
        | none =>
            cases hl2 : posIn l2 x with
            | some j => simp [hys, hl2]; omega
            | none => simp [hys, hl2]

/-- `posIn` finds the index of `f0 + i` in the consecutive id list. -/
theorem posIn_rangeMap (f0 w i : Nat) (h : i < w) :
    posIn ((List.range w).map (fun j => f0 + j)) (f0 + i) = some i := by
  induction w with
  | zero => omega
  | succ n ih =>
      rw [List.range_succ, List.map_append, posIn_append]
      by_cases hi : i < n
      · rw [ih hi]
      · have hin : i = n := by omega
        subst hin
        rw [posIn_eq_none _ _ (by
          intro y hy
          rw [List.mem_map] at hy
          obtain ⟨j, hj, rfl⟩ := hy
          rw [List.mem_range] at hj
          omega)]
        simp [posIn]


/-- `addIncoming` on a body split around the freshly created scalar PHIs:
instructions outside the PHI block (ids below the fresh base) are
untouched, and the `i`-th scalar PHI receives `(lanes[i], blk)`. -/
theorem addIncomingToPhis_decomp (A B : List Instr) (f0 w ek bb : Nat)
    (J : Nat → List (Val × Nat)) (lanes : List Val) (blk : Nat)
    (hA : ∀ x ∈ A, x.id < f0) (hB : ∀ x ∈ B, x.id < f0) :
    addIncomingToPhis
        (A ++ (List.range w).map (fun i => Instr.mk (f0 + i) (.scalar ek) bb (.phi (J i))) ++ B)
        ((List.range w).map (fun i => f0 + i)) lanes blk
      = A ++ (List.range w).map (fun i =>
            Instr.mk (f0 + i) (.scalar ek) bb (.phi (J i ++ [(lanes.getD i junkVal, blk)]))) ++ B := by
  unfold addIncomingToPhis
  rw [List.map_append, List.map_append]
  congr 1
  congr 1
  · conv_rhs => rw [← List.map_id A]
    apply List.map_congr_left
    intro x hx
    rw [posIn_eq_none _ _ (by
      intro y hy
      rw [List.mem_map] at hy
      obtain ⟨j, _, rfl⟩ := hy
      have := hA x hx
      omega)]
    rfl
  · rw [List.map_map]
    apply List.map_congr_left
    intro i hi
    rw [List.mem_range] at hi
    dsimp only [Function.comp]
    rw [posIn_rangeMap _ _ _ hi]
  · conv_rhs => rw [← List.map_id B]
    apply List.map_congr_left
    intro x hx
    rw [posIn_eq_none _ _ (by
      intro y hy
      rw [List.mem_map] at hy
      obtain ⟨j, _, rfl⟩ := hy
      have := hB x hx
      omega)]
    rfl

/-- Closed form of the incoming-value fold of the PHI rule: under pure lane
availability, it only fills the scalar PHIs' incoming lists. -/
theorem phiFold_closed (inc : List (Val × Nat)) (lanes : Val × Nat → List Val)
    (scm0 : List (Val × SCMEntry))
    (A B : List Instr) (f0 w ek bb : Nat)
    (hA : ∀ x ∈ A, x.id < f0) (hB : ∀ x ∈ B, x.id < f0) :
    ∀ (st' : PassState) (J : Nat → List (Val × Nat)),
      (∀ p ∈ inc, pureLanes scm0 p.1 = some (lanes p)) →
      st'.scm = scm0 →
      st'.body = A ++ (List.range w).map
          (fun i => Instr.mk (f0 + i) (.scalar ek) bb (.phi (J i))) ++ B →
      (inc.foldl (fun acc p =>
          let r := obtainScalarizedValues acc p.1
          { r.2.2 with
              body := addIncomingToPhis r.2.2.body
                ((List.range w).map (fun i => f0 + i)) r.1 p.2 }) st')
        = { st' with body := A ++ (List.range w).map (fun i =>
              Instr.mk (f0 + i) (.scalar ek) bb
                (.phi (J i ++ inc.map (fun p => ((lanes p).getD i junkVal, p.2))))) ++ B } := by
  induction inc with
  | nil =>
      intro st' J _ _ hbody
      simp only [List.foldl_nil, List.map_nil, List.append_nil]
      rw [← hbody]
  | cons p ps ih =>
      intro st' J hpure hscm hbody
      rw [List.foldl_cons]
      dsimp only
      rw [obtain_of_pureLanes st' p.1 (lanes p) (by rw [hscm]; exact hpure p (by simp))]
      dsimp only
      rw [hbody]
      rw [addIncomingToPhis_decomp A B f0 w ek bb J (lanes p) p.2 hA hB]
      rw [ih { st' with body := A ++ (List.range w).map (fun i =>
            Instr.mk (f0 + i) (.scalar ek) bb
              (.phi (J i ++ [((lanes p).getD i junkVal, p.2)]))) ++ B }
        (fun i => J i ++ [((lanes p).getD i junkVal, p.2)])
        (fun q hq => hpure q (by simp [hq])) hscm rfl]
      simp [List.append_assoc]


/-- Membership in `insertUnique` of the inserted element. -/
theorem mem_insertUnique_self (l : List Val) (x : Val) : x ∈ insertUnique l x := by
  unfold insertUnique
  by_cases h : x ∈ l
  · rw [if_pos h]; exact h
  · rw [if_neg h]; simp

/-- `insertUnique` keeps existing members. -/
theorem mem_insertUnique_mono (l : List Val) (x y : Val) (h : x ∈ l) :
    x ∈ insertUnique l y := by
  unfold insertUnique
  by_cases hy : y ∈ l
  · rw [if_pos hy]; exact h
  · rw [if_neg hy]; simp [h]

/-- The used-whole fold keeps existing members. -/
theorem fold_used_mono (l : List Val) (st : PassState) (v : Val)
    (h : v ∈ st.usedVectors) :
    v ∈ (l.foldl (fun acc x =>
        if isVectorTy (typeOf x) then obtainVectorValueWhichMightBeScalarized acc x
        else acc) st).usedVectors := by
  induction l generalizing st with
  | nil => exact h
  | cons x xs ih =>
      rw [List.foldl_cons]
      apply ih
      by_cases hx : isVectorTy (typeOf x) = true
      · rw [if_pos hx]
        exact mem_insertUnique_mono _ _ _ h
      · rw [if_neg hx]
        exact h

/-- Every vector-typed value of the list ends up in the used-whole set. -/
theorem mem_recover_usedVectors (l : List Val) (st : PassState) (v : Val)
    (hv : v ∈ l) (hvec : isVectorTy (typeOf v) = true) :
    v ∈ (l.foldl (fun acc x =>
        if isVectorTy (typeOf x) then obtainVectorValueWhichMightBeScalarized acc x
        else acc) st).usedVectors := by
  induction l generalizing st with
  | nil => cases hv
  | cons x xs ih =>
      rw [List.foldl_cons]
      rcases List.mem_cons.mp hv with rfl | hv
      · rw [if_pos hvec]
        exact fold_used_mono _ _ _ (mem_insertUnique_self _ _)
      · exact ih _ hv

/-- `pureLanes` is stable under appending an SCM entry for a (fresh)
instruction key. -/
theorem pureLanes_append_of_some (scm : List (Val × SCMEntry)) (q : Val) (ls : List Val)
    (pid : Nat) (pt : Typ) (e0 : SCMEntry)
    (h : pureLanes scm q = some ls) :
    pureLanes (scm ++ [(Val.inst pid pt, e0)]) q = some ls := by
  unfold pureLanes at h ⊢
  dsimp only at h ⊢
  have happ : lookupSCM (scm ++ [(Val.inst pid pt, e0)]) q =
      (lookupSCM scm q).or (lookupSCM [(Val.inst pid pt, e0)] q) := by
    unfold lookupSCM
    rw [List.find?_append]
    cases List.find? (fun p => decide (p.1 = q)) scm <;> rfl
  cases hl : lookupSCM scm q with
  | some e =>
      rw [hl] at h
      rw [happ, hl]
      exact h
  | none =>
      rw [hl] at h
      dsimp only at h
      rw [happ, hl]
      cases q with
      | const c =>
          rw [show lookupSCM [(Val.inst pid pt, e0)] (Val.const c) = none from rfl]
          exact h
      | inst id t =>
          by_cases hu : isUndefVal (Val.inst id t) = true
          · simp [isUndefVal] at hu
          · rw [if_neg hu] at h
            dsimp only at h
            cases h
      | arg n t =>
          rw [show lookupSCM [(Val.inst pid pt, e0)] (Val.arg n t) = none from rfl]
          exact h


/-- C8: a vector PHI with an incoming value produced by a VME send
intrinsic is left intact (Recovery) — the body and removed set are
unchanged and every vector-typed incoming value is registered in the
used-whole set.  Otherwise the PHI is decomposed: `width` new scalar PHI
nodes are inserted before it, the `i`-th collecting lane `i` of every
incoming value (with its incoming block), the lanes are recorded as the
PHI's resolved SCM entry, and the PHI is marked removed. -/
theorem c8_phi_behavior (st : PassState) (pin : Instr) (inc : List (Val × Nat)) (ek w : Nat)
    (hop : pin.op = .phi inc) (ht : pin.t = .vector ek w) :
    (inc.any (fun p => isVmeSendVal st p.1) = true →
      (scalarizePHI st pin).body = st.body ∧
      (scalarizePHI st pin).removedInsts = st.removedInsts ∧
      ∀ p ∈ inc, isVectorTy (typeOf p.1) = true → p.1 ∈ (scalarizePHI st pin).usedVectors) ∧
    (∀ lanes : Val × Nat → List Val,
      inc.any (fun p => isVmeSendVal st p.1) = false →
      (∀ p ∈ inc, pureLanes st.scm p.1 = some (lanes p)) →
      (∀ bi ∈ st.body, bi.id < st.fresh) →
      (scalarizePHI st pin).body =
        insertBeforeId st.body (some pin.id)
          ((List.range w).map (fun i =>
            Instr.mk (st.fresh + i) (.scalar ek) pin.bb
              (.phi (inc.map (fun p => ((lanes p).getD i junkVal, p.2)))))) ∧
      lookupSCM (scalarizePHI st pin).scm pin.val =
        some ⟨(List.range w).map (fun i => some (Val.inst (st.fresh + i) (.scalar ek))), true⟩ ∧
      (scalarizePHI st pin).removedInsts = insertRemoved st.removedInsts pin.id ∧
      (scalarizePHI st pin).fresh = st.fresh + w) := by
  constructor
  · intro hvme
    unfold scalarizePHI
    rw [hop, ht]
    dsimp only
    rw [if_pos hvme]
    unfold recoverNonScalarizableInst
    rw [hop]
    rcases recover_fold_fields (opVals (Op.phi inc))
      (if isVectorTy pin.t then getSCMEntryState st pin.val else st) with ⟨h1, h2, _, _, _, _⟩
    refine ⟨?_, ?_, ?_⟩
    · rw [h1]; split <;> simp
    · rw [h2]; split <;> simp
    · intro p hp hvec
      refine mem_recover_usedVectors _ _ _ ?_ hvec
      rw [show opVals (Op.phi inc) = inc.map (fun q => q.1) from rfl]
      exact List.mem_map.mpr ⟨p, hp, rfl⟩
  · intro lanes hvme hpure hfresh
    unfold scalarizePHI
    rw [hop, ht]
    dsimp only
    rw [if_neg (by simp [hvme])]
    simp only [getSCMEntryState_body, getSCMEntryState_fresh]
    have hscm0 : ∃ scm0, (getSCMEntryState st pin.val).scm = scm0 ∧
        (∀ p ∈ inc, pureLanes scm0 p.1 = some (lanes p)) := by
      unfold getSCMEntryState
      cases hlk : lookupSCM st.scm pin.val with
      | some e => exact ⟨st.scm, rfl, hpure⟩
      | none =>
          refine ⟨st.scm ++ [(pin.val, ⟨[none], false⟩)], rfl, ?_⟩
          intro p hp
          exact pureLanes_append_of_some st.scm p.1 (lanes p) pin.id pin.t _ (hpure p hp)
    obtain ⟨scm0, hscm0eq, hpure0⟩ := hscm0
    rw [phiFold_closed inc lanes scm0
      (st.body.takeWhile (fun i => i.id ≠ pin.id))
      (st.body.dropWhile (fun i => i.id ≠ pin.id))
      st.fresh w ek pin.bb
      (fun x hx => hfresh x ((List.takeWhile_prefix _).subset hx))
      (fun x hx => hfresh x ((List.dropWhile_suffix _).subset hx))
      _ (fun _ => ([] : List (Val × Nat))) hpure0 (by simp [hscm0eq]) rfl]
    refine ⟨?_, ?_, ?_, ?_⟩
    · rfl
    · rw [scmUpdate]
      dsimp only [Instr.val, typeOf]
      rw [ht]
      dsimp only [widthOf]
      rw [lookupSCM_setSCM_self _ _ _
        (lookupSCM_isSome_getSCMEntryState st (Val.inst pin.id (Typ.vector ek w)))]
      congr 1
      congr 1
      apply List.map_congr_left
      intro i hi
      rw [List.mem_range] at hi
      rw [List.map_map]
      rw [rangeMap_getD _ _ _ _ hi]
      rfl
    · simp
    · simp


/-- Witness for C8 on a concrete vector PHI (one constant incoming, one
already-decomposed instruction incoming, no VME send). -/
theorem c8_witness :
    (scalarizePHI exStPhi exPhi).body =
      insertBeforeId exStPhi.body (some exPhi.id)
        ((List.range 2).map (fun i =>
          Instr.mk (exStPhi.fresh + i) (.scalar 32) exPhi.bb
            (.phi (exPhiInc.map (fun p => ((exPhiLanes p).getD i junkVal, p.2)))))) ∧
    lookupSCM (scalarizePHI exStPhi exPhi).scm exPhi.val =
      some ⟨(List.range 2).map (fun i => some (Val.inst (exStPhi.fresh + i) (.scalar 32))),
        true⟩ ∧
    (scalarizePHI exStPhi exPhi).removedInsts =
      insertRemoved exStPhi.removedInsts exPhi.id ∧
    (scalarizePHI exStPhi exPhi).fresh = exStPhi.fresh + 2 :=
  (c8_phi_behavior exStPhi exPhi exPhiInc 32 2 rfl rfl).2 exPhiLanes (by decide) (by decide)
    (by decide)


/-- The used-whole fold is the identity when no listed operand is
vector-typed. -/
theorem recover_fold_noop (l : List Val) (st : PassState)
    (h : ∀ v ∈ l, isVectorTy (typeOf v) = false) :
    (l.foldl (fun acc v =>
        if isVectorTy (typeOf v) then obtainVectorValueWhichMightBeScalarized acc v
        else acc) st) = st := by
  induction l generalizing st with
  | nil => rfl
  | cons x xs ih =>
      rw [List.foldl_cons, if_neg (by simp [h x (by simp)])]
      exact ih _ (fun v hv => h v (by simp [hv]))

/-- Recovery is a no-op on an instruction with no vector result and no
vector operand. -/
theorem recover_scalar_noop (st : PassState) (i : Instr)
    (hres : isVectorTy i.t = false)
    (hops : ∀ v ∈ opVals i.op, isVectorTy (typeOf v) = false) :
    recoverNonScalarizableInst st i = st := by
  unfold recoverNonScalarizableInst
  rw [if_neg (by simp [hres])]
  exact recover_fold_noop _ _ hops

/-- Dispatching a purely scalar instruction changes nothing. -/
theorem dispatch_scalar_noop (st : PassState) (i : Instr)
    (h : scalarOnlyInstrB i = true) :
    dispatchInstructionToScalarize st i = st := by
  unfold scalarOnlyInstrB at h
  rw [Bool.and_eq_true, Bool.and_eq_true] at h
  obtain ⟨⟨hres, hops⟩, hkind⟩ := h
  rw [Bool.not_eq_true'] at hres
  rw [List.all_eq_true] at hops
  have hops' : ∀ v ∈ opVals i.op, isVectorTy (typeOf v) = false := by
    intro v hv
    have := hops v hv
    rwa [Bool.not_eq_true'] at this
  unfold dispatchInstructionToScalarize
  by_cases hmem : i.id ∈ st.removedInsts
  · rw [if_pos hmem]
  · rw [if_neg hmem]
    cases hop : i.op with
    | binop kind flags a b =>
        unfold scalarizeBinaryOperator
        rw [hop]
        cases hti : i.t with
        | vector ek w => rw [hti] at hres; simp [isVectorTy] at hres
        | scalar k => rfl
        | pointerTo k => rfl
        | voidT => rfl
        | opaqueT k => rfl
    | cmp kind pred a b =>
        unfold scalarizeCmp
        rw [hop]
        cases hti : i.t with
        | vector ek w => rw [hti] at hres; simp [isVectorTy] at hres
        | scalar k => rfl
        | pointerTo k => rfl
        | voidT => rfl
        | opaqueT k => rfl
    | cast ck a =>
        unfold scalarizeCast
        rw [hop]
        dsimp only
        by_cases hck : ck = bitcastKind
        · rw [if_pos hck, if_pos (by simp [hres])]
          exact recover_scalar_noop st i hres hops'
        · rw [if_neg hck, if_pos (by simp [hres])]
    | phi inc =>
        unfold scalarizePHI
        rw [hop]
        cases hti : i.t with
        | vector ek w => rw [hti] at hres; simp [isVectorTy] at hres
        | scalar k => rfl
        | pointerTo k => rfl
        | voidT => rfl
        | opaqueT k => rfl
    | select c tv fv =>
        unfold scalarizeSelect
        rw [hop]
        cases hti : i.t with
        | vector ek w => rw [hti] at hres; simp [isVectorTy] at hres
        | scalar k => rfl
        | pointerTo k => rfl
        | voidT => rfl
        | opaqueT k => rfl
    | extractElem v idx => rw [hop] at hkind; simp at hkind
    | insertElem v sv idx => rw [hop] at hkind; simp at hkind
    | shuffle a b mask => rw [hop] at hkind; simp at hkind
    | load ptr =>
        unfold scalarizeLoad
        rw [hop]
        cases hti : i.t with
        | vector ek w => rw [hti] at hres; simp [isVectorTy] at hres
        | scalar k => exact recover_scalar_noop st i hres hops'
        | pointerTo k => exact recover_scalar_noop st i hres hops'
        | voidT => exact recover_scalar_noop st i hres hops'
        | opaqueT k => exact recover_scalar_noop st i hres hops'
    | store dval ptr =>
        unfold scalarizeStore
        rw [hop]
        dsimp only
        have hd : isVectorTy (typeOf dval) = false := hops' dval (by rw [hop]; simp [opVals])
        cases htd : typeOf dval with
        | vector ek w => rw [htd] at hd; simp [isVectorTy] at hd
        | scalar k => exact recover_scalar_noop st i hres hops'
        | pointerTo k => exact recover_scalar_noop st i hres hops'
        | voidT => exact recover_scalar_noop st i hres hops'
        | opaqueT k => exact recover_scalar_noop st i hres hops'
    | alloca => exact recover_scalar_noop st i hres hops'
    | gep ops => exact recover_scalar_noop st i hres hops'
    | call intr args => exact recover_scalar_noop st i hres hops'
    | otherOp ops => exact recover_scalar_noop st i hres hops'

/-- The traversal loop changes nothing on a purely scalar body. -/
theorem traverse_scalar_noop (fuel : Nat) :
    ∀ (st : PassState) (cursor : Option Nat),
      (∀ i ∈ st.body, scalarOnlyInstrB i = true) →
      traverseLoop fuel st cursor = st := by
  induction fuel with
  | zero => intro st cursor _; rfl
  | succ n ih =>
      intro st cursor h
      cases cursor with
      | none => rfl
      | some cid =>
          unfold traverseLoop
          cases hf : findInstr st.body cid with
          | none => rfl
          | some curr =>
              dsimp only
              rw [dispatch_scalar_noop st curr
                (h curr (List.mem_of_find?_eq_some hf))]
              exact ih st _ h


/-- C9 (counterexample).  Re-running the pass on the already-processed
result of `exFunc` is not a no-op: the second run again decomposes the
extractelement against a source with an empty (freshly reset) SCM, emitting
new extraction instructions and removing the old ones, so the body changes
again. -/
theorem c9_counterexample :
    (runOnFunction false false (runOnFunction false false exFunc).1).1 ≠
      (runOnFunction false false exFunc).1 := by decide

/-- C9 (amended).  The pass is a no-op — hence trivially idempotent — on
any function it processes whose instructions are all purely scalar: every
dispatch leaves the state untouched, no value is marked used-whole, the DRL
stays empty, and nothing is removed, so the function comes back unchanged.
The original universal idempotence claim fails: the counterexample shows a
function on whose already-processed output a second run, starting from a
reset SCM, re-derives the decomposition and changes the body again. -/
theorem c9_scalar_function_unchanged (fi sl : Bool) (F : Func)
    (hrun : (runOnFunction fi sl F).2 = true)
    (h : ∀ i ∈ F.body, scalarOnlyInstrB i = true) :
    (runOnFunction fi sl F).1 = F := by
  have key : (processFunction sl F).1 = F := by
    unfold processFunction
    dsimp only
    rw [traverse_scalar_noop F.body.length _ _ h]
    rfl
  unfold runOnFunction at hrun ⊢
  by_cases hfi : fi = false
  · rw [if_pos hfi] at hrun ⊢
    by_cases hd : F.isDecl = true
    · rw [if_pos hd] at hrun; simp at hrun
    · rw [if_neg hd]; exact key
  · rw [if_neg hfi] at hrun ⊢
    by_cases hv : (!F.retVoid) = true
    · rw [if_pos hv] at hrun; simp at hrun
    · rw [if_neg hv]; exact key

theorem c9_witness :
    (runOnFunction false false scalarOnlyFunc).2 = true ∧
    (∀ i ∈ scalarOnlyFunc.body, scalarOnlyInstrB i = true) ∧
    (runOnFunction false false scalarOnlyFunc).1 = scalarOnlyFunc :=
  ⟨by decide, by decide,
   c9_scalar_function_unchanged false false scalarOnlyFunc (by decide) (by decide)⟩


/-! ### RAUW and list helpers for DRL resolution -/

/-- The operands of a RAUW-rewritten instruction are the pointwise
replacement of its operands. -/
theorem opVals_rauwOp (old new : Val) (op : Op) :
    opVals (rauwOp old new op) = (opVals op).map (replaceVal old new) := by
  cases op <;> simp [opVals, rauwOp, List.map_map]

/-- The image of a single operand replacement. -/
theorem replaceVal_eq_cases (old new a d : Val) (h : replaceVal old new a = d) :
    d = new ∨ (a = d ∧ a ≠ old) := by
  unfold replaceVal at h
  by_cases ha : a = old
  · rw [if_pos ha] at h; exact Or.inl h.symm
  · rw [if_neg ha] at h; exact Or.inr ⟨h, ha⟩

/-- Every instruction of a RAUW-rewritten body keeps its id and has the
rewritten operands of a body instruction. -/
theorem mem_rauwBody (old new : Val) (b : List Instr) (x : Instr)
    (hx : x ∈ rauwBody old new b) :
    ∃ y ∈ b, x.id = y.id ∧ x.op = rauwOp old new y.op := by
  unfold rauwBody at hx
  rw [List.mem_map] at hx
  obtain ⟨y, hy, hxy⟩ := hx
  exact ⟨y, hy, by rw [← hxy], by rw [← hxy]⟩

/-- `replaceAllUsesWith` eliminates every use of the replaced value. -/
theorem rauw_removes (old new : Val) (hne : new ≠ old) (b : List Instr) :
    ¬ usedInBody (rauwBody old new b) old := by
  rintro ⟨i, hi, hop⟩
  obtain ⟨y, hy, hid, hopEq⟩ := mem_rauwBody old new b i hi
  rw [hopEq, opVals_rauwOp, List.mem_map] at hop
  obtain ⟨a, ha, hrep⟩ := hop
  rcases replaceVal_eq_cases old new a old hrep with h1 | h2
  · exact hne h1.symm
  · exact h2.2 h2.1

/-- `replaceAllUsesWith` introduces no use of a value other than the
replacement. -/
theorem rauw_preserves_not_used (old new d : Val) (b : List Instr)
    (hd : ¬ usedInBody b d) (hne : d ≠ new) :
    ¬ usedInBody (rauwBody old new b) d := by
  rintro ⟨i, hi, hop⟩
  obtain ⟨y, hy, hid, hopEq⟩ := mem_rauwBody old new b i hi
  rw [hopEq, opVals_rauwOp, List.mem_map] at hop
  obtain ⟨a, ha, hrep⟩ := hop
  rcases replaceVal_eq_cases old new a d hrep with h1 | h2
  · exact hne h1
  · exact hd ⟨y, hy, h2.1 ▸ ha⟩

/-- Members of an insertion are old members or inserted. -/
theorem mem_insertBeforeId (b : List Instr) (loc : Option Nat) (ns : List Instr)
    (x : Instr) (hx : x ∈ insertBeforeId b loc ns) : x ∈ b ∨ x ∈ ns := by
  unfold insertBeforeId at hx
  cases loc with
  | none => rw [List.mem_append] at hx; exact hx
  | some lid =>
      rw [List.mem_append, List.mem_append] at hx
      rcases hx with (h | h) | h
      · exact Or.inl ((List.takeWhile_prefix _).subset h)
      · exact Or.inr h
      · exact Or.inl ((List.dropWhile_suffix _).subset h)

/-- `getD` at an in-range index is a member. -/
theorem getD_mem_of_lt {α : Type} (l : List α) (i : Nat) (d : α) (h : i < l.length) :
    l.getD i d ∈ l := by
  rw [List.getD_eq_getElem?_getD, List.getElem?_eq_getElem h]
  exact List.getElem_mem h

/-- Every member is a `getD` at an in-range index. -/
theorem exists_getD_of_mem {α : Type} (l : List α) (x d : α) (hx : x ∈ l) :
    ∃ i, i < l.length ∧ l.getD i d = x := by
  obtain ⟨i, hi, hEq⟩ := List.mem_iff_getElem.mp hx
  exact ⟨i, hi, by rw [List.getD_eq_getElem?_getD, List.getElem?_eq_getElem hi]; exact hEq⟩

/-- `getD` steps over a cons at a successor index. -/
theorem getD_cons_succ_eq {α : Type} (a : α) (l : List α) (n : Nat) (d : α) :
    (a :: l).getD (n + 1) d = l.getD n d := by
  simp [List.getD_eq_getElem?_getD]

/-- A defined lane is one of the entry's stored lanes. -/
theorem laneAt_mem (e : SCMEntry) (i : Nat) (v : Val) (h : laneAt e i = some v) :
    some v ∈ e.scalarValues := by
  unfold laneAt at h
  rcases lt_or_ge i e.scalarValues.length with hlt | hge
  · rw [List.getD_eq_getElem?_getD, List.getElem?_eq_getElem hlt] at h
    rw [← h]
    exact List.getElem_mem hlt
  · rw [List.getD_eq_getElem?_getD, List.getElem?_eq_none hge] at h
    exact absurd h (by simp)

/-- Allocating an absent SCM entry does not disturb other keys. -/
theorem lookupSCM_getSCMEntryState_other (st : PassState) (v v2 : Val) (hne : v2 ≠ v) :
    lookupSCM (getSCMEntryState st v).scm v2 = lookupSCM st.scm v2 := by
  unfold getSCMEntryState
  cases hl : lookupSCM st.scm v with
  | some e => rfl
  | none =>
      dsimp only
      unfold lookupSCM
      rw [List.find?_append, List.find?_cons_of_neg _ (by simp [Ne.symm hne]),
        List.find?_nil, Option.or_none]

/-- Allocating an absent SCM entry installs the unresolved entry. -/
theorem lookupSCM_getSCMEntryState_self_of_none (st : PassState) (v : Val)
    (hl : lookupSCM st.scm v = none) :
    lookupSCM (getSCMEntryState st v).scm v = some ⟨[none], false⟩ := by
  unfold getSCMEntryState
  rw [hl]
  dsimp only
  unfold lookupSCM at hl ⊢
  rw [List.find?_append]
  cases hf : st.scm.find? (fun p => p.1 = v) with
  | some q => rw [hf] at hl; simp at hl
  | none => rw [Option.none_or, List.find?_cons_of_pos _ (by simp)]; rfl

/-- A lane value present for the target after `getSCMEntry` was already
present before (the freshly allocated entry holds no value). -/
theorem lanes_st1_to_S (S : PassState) (T v : Val)
    (h : some v ∈ scmLanesOf (getSCMEntryState S T) T) : some v ∈ scmLanesOf S T := by
  cases hl : lookupSCM S.scm T with
  | some e =>
      have hid : getSCMEntryState S T = S := by unfold getSCMEntryState; rw [hl]
      rw [hid] at h
      exact h
  | none =>
      exfalso
      unfold scmLanesOf at h
      rw [lookupSCM_getSCMEntryState_self_of_none S T hl] at h
      simp at h

/-- A value absent from a key's lanes stays absent after `getSCMEntry`. -/
theorem scmLanesOf_getSCMEntryState_preserve (S : PassState) (v v2 x : Val)
    (h : some x ∉ scmLanesOf S v2) :
    some x ∉ scmLanesOf (getSCMEntryState S v) v2 := by
  by_cases hvv : v2 = v
  · subst hvv
    intro hc
    exact h (lanes_st1_to_S S v2 x hc)
  · unfold scmLanesOf at h ⊢
    rw [lookupSCM_getSCMEntryState_other S v v2 hvv]
    exact h

/-- `scmLanesOf` only looks at the map. -/
theorem scmLanesOf_congr (st st2 : PassState) (v : Val) (h : st.scm = st2.scm) :
    scmLanesOf st v = scmLanesOf st2 v := by
  unfold scmLanesOf
  rw [h]

/-- A scalar value whose id is backed by an unplaced instruction and is not
a body id is recognized as a placeholder when every unplaced instruction is
a dummy load. -/
theorem isDummyValue_of_backed (st : PassState) (did : Nat) (t : Typ)
    (hnb : ∀ bi ∈ st.body, bi.id ≠ did)
    (hback : ∃ u ∈ st.unplaced, u.id = did)
    (hall : ∀ u ∈ st.unplaced, ∃ pk, u.op = Op.load (Val.const (Const.nullPtr pk))) :
    isDummyValue st (Val.inst did t) = true := by
  unfold isDummyValue
  unfold findInstr
  dsimp only
  rw [List.find?_append]
  have hb : st.body.find? (fun i => i.id = did) = none := by
    rw [List.find?_eq_none]
    intro x hx
    simp [hnb x hx]
  rw [hb, Option.none_or]
  obtain ⟨u, hu, hid⟩ := hback
  cases hf : st.unplaced.find? (fun i => i.id = did) with
  | none =>
      have := List.find?_eq_none.mp hf u hu
      simp [hid] at this
  | some u2 =>
      obtain ⟨pk, hop⟩ := hall u2 (List.mem_of_find?_eq_some hf)
      dsimp only
      rw [hop]

/-- `drlFixup` as a fold of `fixStep`. -/
theorem drlFixup_eq (st1 : PassState) (target : Val) (vid : Nat) (vt : Typ)
    (e1 : SCMEntry) (scInit : Bool) (width : Nat) :
    drlFixup st1 target vid vt e1 scInit width =
      scmUpdate ((List.range width).foldl
          (fixStep st1 target vt e1 scInit (nextLocAfter st1.body vid)
            (bbOfLoc st1.body (nextLocAfter st1.body vid))) (st1, [])).1
        target
        ((List.range width).foldl
          (fixStep st1 target vt e1 scInit (nextLocAfter st1.body vid)
            (bbOfLoc st1.body (nextLocAfter st1.body vid))) (st1, [])).2
        false := rfl

/-- `drlConnect` as a fold of `conStep`. -/
theorem drlConnect_eq (st2 : PassState) (dv : List Val) (e2 : SCMEntry) (w : Nat) :
    drlConnect st2 dv e2 w = (List.range w).foldl (conStep dv e2) st2 := rfl


/-- Everything the step lemma needs about the re-scalarization fold: the
map and unplaced set are untouched, the fresh counter only grows, body
additions are fresh extractions from the target, and every produced lane is
an old lane value, a fresh extraction, or a kept non-placeholder lane. -/
theorem fixFold_facts (st1 : PassState) (T : Val) (vt : Typ) (e1 : SCMEntry)
    (sc : Bool) (locId : Option Nat) (locBB : Nat) :
    ∀ (l : List Nat) (acc : PassState × List Val),
      ((l.foldl (fixStep st1 T vt e1 sc locId locBB) acc).1.scm = acc.1.scm ∧
       (l.foldl (fixStep st1 T vt e1 sc locId locBB) acc).1.unplaced = acc.1.unplaced ∧
       acc.1.fresh ≤ (l.foldl (fixStep st1 T vt e1 sc locId locBB) acc).1.fresh) ∧
      (∀ bi ∈ (l.foldl (fixStep st1 T vt e1 sc locId locBB) acc).1.body,
         bi ∈ acc.1.body ∨
           (acc.1.fresh ≤ bi.id ∧ ∃ i, bi.op = Op.extractElem T (i32Const i))) ∧
      (l.foldl (fixStep st1 T vt e1 sc locId locBB) acc).2.length =
        acc.2.length + l.length ∧
      (∀ v ∈ (l.foldl (fixStep st1 T vt e1 sc locId locBB) acc).2,
         v ∈ acc.2 ∨
           (∃ nid, acc.1.fresh ≤ nid ∧ ∃ dk, v = Val.inst nid (Typ.scalar dk)) ∨
           (∃ i, sc = true ∧ isDummyLane st1 (laneAt e1 i) = false ∧
              v = (laneAt e1 i).getD junkVal)) := by
  intro l
  induction l with
  | nil =>
      intro acc
      exact ⟨⟨rfl, rfl, le_refl _⟩, fun bi hbi => Or.inl hbi, by simp,
        fun v hv => Or.inl hv⟩
  | cons i0 l ih =>
      intro acc
      rw [List.foldl_cons]
      by_cases hc : (!sc || isDummyLane st1 (laneAt e1 i0)) = true
      · have hstep : fixStep st1 T vt e1 sc locId locBB acc i0 =
            ({ acc.1 with
                body := insertBeforeId acc.1.body locId
                  [Instr.mk acc.1.fresh (Typ.scalar (elemKindOf vt)) locBB
                    (Op.extractElem T (i32Const i0))],
                fresh := acc.1.fresh + 1 },
             acc.2 ++ [Val.inst acc.1.fresh (Typ.scalar (elemKindOf vt))]) := by
          unfold fixStep
          rw [if_pos hc]
          rfl
        rw [hstep]
        obtain ⟨⟨hscm, hunp, hfr⟩, hbody, hlenF, hlane⟩ := ih _
        refine ⟨⟨hscm, hunp, le_trans (Nat.le_succ _) hfr⟩, ?_, ?_, ?_⟩

        · intro bi hbi
          rcases hbody bi hbi with hmem | ⟨hid, i, hop⟩
          · rcases mem_insertBeforeId _ _ _ bi hmem with hold | hnew
            · exact Or.inl hold
            · rcases List.mem_singleton.mp hnew with rfl
              exact Or.inr ⟨le_refl _, i0, rfl⟩
          · exact Or.inr ⟨le_trans (Nat.le_succ _) hid, i, hop⟩
        · rw [hlenF]
          simp
          omega
        · intro v hv
          rcases hlane v hv with hmem | ⟨nid, hnid, dk, hsh⟩ | hkeep
          · rcases List.mem_append.mp hmem with hold | hnew
            · exact Or.inl hold
            · rcases List.mem_singleton.mp hnew with rfl
              exact Or.inr (Or.inl ⟨acc.1.fresh, le_refl _, elemKindOf vt, rfl⟩)
          · exact Or.inr (Or.inl ⟨nid, le_trans (Nat.le_succ _) hnid, dk, hsh⟩)
          · exact Or.inr (Or.inr hkeep)
      · have hc2 : sc = true ∧ isDummyLane st1 (laneAt e1 i0) = false := by
          rcases Bool.not_eq_true _ ▸ hc with h
          simp at h
          exact h
        have hstep : fixStep st1 T vt e1 sc locId locBB acc i0 =
            (acc.1, acc.2 ++ [(laneAt e1 i0).getD junkVal]) := by
          unfold fixStep
          rw [if_neg hc]
        rw [hstep]
        obtain ⟨⟨hscm, hunp, hfr⟩, hbody, hlenF, hlane⟩ := ih _
        refine ⟨⟨hscm, hunp, hfr⟩, hbody, ?_, ?_⟩
        · rw [hlenF]
          simp
          omega
        · intro v hv
          rcases hlane v hv with hmem | hfresh | hkeep
          · rcases List.mem_append.mp hmem with hold | hnew
            · exact Or.inl hold
            · rcases List.mem_singleton.mp hnew with rfl
              exact Or.inr (Or.inr ⟨i0, hc2.1, hc2.2, rfl⟩)
          · exact Or.inr (Or.inl hfresh)
          · exact Or.inr (Or.inr hkeep)

/-- Fields the connection fold never touches, and its body/unplaced
monotonicity. -/
theorem conFold_fields (dv : List Val) (e2 : SCMEntry) :
    ∀ (l : List Nat) (acc : PassState),
      (l.foldl (conStep dv e2) acc).scm = acc.scm ∧
      (l.foldl (conStep dv e2) acc).fresh = acc.fresh ∧
      (∀ u ∈ (l.foldl (conStep dv e2) acc).unplaced, u ∈ acc.unplaced) ∧
      (∀ bi ∈ (l.foldl (conStep dv e2) acc).body, ∃ y ∈ acc.body, bi.id = y.id) := by
  intro l
  induction l with
  | nil =>
      intro acc
      exact ⟨rfl, rfl, fun u hu => hu, fun bi hbi => ⟨bi, hbi, rfl⟩⟩
  | cons j l ih =>
      intro acc
      rw [List.foldl_cons]
      obtain ⟨hscm, hfr, hunp, hbody⟩ := ih (conStep dv e2 acc j)
      have hu1 : ∀ u ∈ (conStep dv e2 acc j).unplaced, u ∈ acc.unplaced := by
        intro u hu
        cases hdm : dv.getD j junkVal with
        | inst did t =>
            rw [show (conStep dv e2 acc j).unplaced =
                acc.unplaced.filter (fun u => u.id ≠ did) from by
              unfold conStep; dsimp only; rw [hdm]] at hu
            exact List.mem_of_mem_filter hu
        | arg n t =>
            rw [show (conStep dv e2 acc j).unplaced = acc.unplaced from by
              unfold conStep; dsimp only; rw [hdm]] at hu
            exact hu
        | const c =>
            rw [show (conStep dv e2 acc j).unplaced = acc.unplaced from by
              unfold conStep; dsimp only; rw [hdm]] at hu
            exact hu
      have hb1 : ∀ bi ∈ (conStep dv e2 acc j).body, ∃ y ∈ acc.body, bi.id = y.id := by
        intro bi hbi
        obtain ⟨y, hy, hid, -⟩ := mem_rauwBody _ _ _ bi hbi
        exact ⟨y, hy, hid⟩
      refine ⟨hscm.trans rfl, hfr.trans rfl, ?_, ?_⟩
      · intro u hu
        exact hu1 u (hunp u hu)
      · intro bi hbi
        obtain ⟨y, hy, hid⟩ := hbody bi hbi
        obtain ⟨z, hz, hid2⟩ := hb1 y hy
        exact ⟨z, hz, hid.trans hid2⟩

/-- A value used by no body instruction stays unused through the connection
fold when no substituted lane equals it. -/
theorem conFold_preserve_not_used (dv : List Val) (e2 : SCMEntry) (d : Val) :
    ∀ (l : List Nat) (acc : PassState),
      (∀ i ∈ l, (laneAt e2 i).getD junkVal ≠ d) →
      ¬ usedInBody acc.body d →
      ¬ usedInBody (l.foldl (conStep dv e2) acc).body d := by
  intro l
  induction l with
  | nil => intro acc _ h; exact h
  | cons j l ih =>
      intro acc hlane hacc
      rw [List.foldl_cons]
      apply ih
      · intro i hi
        exact hlane i (List.mem_cons_of_mem _ hi)
      · show ¬ usedInBody
          (rauwBody (dv.getD j junkVal) ((laneAt e2 j).getD junkVal) acc.body) d
        exact rauw_preserves_not_used _ _ d _ hacc (hlane j (List.mem_cons_self _ _)).symm

/-- A placeholder the connection fold substitutes ends up unused, when no
substituted lane equals it. -/
theorem conFold_kill_used (dv : List Val) (e2 : SCMEntry) (d : Val) :
    ∀ (l : List Nat) (acc : PassState),
      (∀ i ∈ l, (laneAt e2 i).getD junkVal ≠ d) →
      (∃ i0 ∈ l, dv.getD i0 junkVal = d) →
      ¬ usedInBody (l.foldl (conStep dv e2) acc).body d := by
  intro l
  induction l with
  | nil =>
      rintro acc _ ⟨i0, hi0, -⟩
      exact absurd hi0 (List.not_mem_nil _)
  | cons j l ih =>
      intro acc hlane hex
      rw [List.foldl_cons]
      by_cases hj : dv.getD j junkVal = d
      · apply conFold_preserve_not_used
        · intro i hi
          exact hlane i (List.mem_cons_of_mem _ hi)
        · show ¬ usedInBody
            (rauwBody (dv.getD j junkVal) ((laneAt e2 j).getD junkVal) acc.body) d
          rw [hj]
          exact rauw_removes d _ (hlane j (List.mem_cons_self _ _)) acc.body
      · obtain ⟨i0, hi0, hEq⟩ := hex
        rcases List.mem_cons.mp hi0 with rfl | hi0x
        · exact absurd hEq hj
        · exact ih _ (fun i hi => hlane i (List.mem_cons_of_mem _ hi)) ⟨i0, hi0x, hEq⟩

/-- After the connection fold, the id of a substituted placeholder has been
deleted from the unplaced set. -/
theorem conFold_unplaced_kill (dv : List Val) (e2 : SCMEntry) (did : Nat) :
    ∀ (l : List Nat) (acc : PassState),
      (∃ i0 ∈ l, ∃ t, dv.getD i0 junkVal = Val.inst did t) →
      ∀ u ∈ (l.foldl (conStep dv e2) acc).unplaced, u.id ≠ did := by
  intro l
  induction l with
  | nil =>
      rintro acc ⟨i0, hi0, -⟩
      exact absurd hi0 (List.not_mem_nil _)
  | cons j l ih =>
      intro acc hex u hu
      rw [List.foldl_cons] at hu
      rcases hex with ⟨i0, hi0, t, hEq⟩
      rcases List.mem_cons.mp hi0 with rfl | hi0x
      · have hu2 : u ∈ (conStep dv e2 acc i0).unplaced :=
          (conFold_fields dv e2 l _).2.2.1 u hu
        rw [show (conStep dv e2 acc i0).unplaced =
            acc.unplaced.filter (fun u => u.id ≠ did) from by
          unfold conStep; dsimp only; rw [hEq]] at hu2
        have := List.of_mem_filter hu2
        simpa using this
      · exact ih (conStep dv e2 acc j) ⟨i0, hi0x, t, hEq⟩ u hu

/-- An unplaced instruction whose id no substituted placeholder carries
survives the connection fold. -/
theorem conFold_unplaced_survive (dv : List Val) (e2 : SCMEntry) :
    ∀ (l : List Nat) (acc : PassState) (u : Instr),
      u ∈ acc.unplaced →
      (∀ i ∈ l, ∀ did t, dv.getD i junkVal = Val.inst did t → u.id ≠ did) →
      u ∈ (l.foldl (conStep dv e2) acc).unplaced := by
  intro l
  induction l with
  | nil => intro acc u hu _; exact hu
  | cons j l ih =>
      intro acc u hu hok
      rw [List.foldl_cons]
      apply ih
      · cases hdm : dv.getD j junkVal with
        | inst did t =>
            rw [show (conStep dv e2 acc j).unplaced =
                acc.unplaced.filter (fun u => u.id ≠ did) from by
              unfold conStep; dsimp only; rw [hdm]]
            exact List.mem_filter.mpr ⟨hu, by
              simp [hok j (List.mem_cons_self _ _) did t hdm]⟩
        | arg n t =>
            rw [show (conStep dv e2 acc j).unplaced = acc.unplaced from by
              unfold conStep; dsimp only; rw [hdm]]
            exact hu
        | const c =>
            rw [show (conStep dv e2 acc j).unplaced = acc.unplaced from by
              unfold conStep; dsimp only; rw [hdm]]
            exact hu
      · intro i hi
        exact hok i (List.mem_cons_of_mem _ hi)


/-- A clean lane value can never be a still-pending placeholder: it is
junk, has a fresh id, or would have been recognized as a placeholder. -/
theorem cleanLane_ne_pending (S : PassState) (T v d : Val) (did dk : Nat)
    (hcl : cleanLane S (getSCMEntryState S T) T v)
    (hshape : d = Val.inst did (Typ.scalar dk)) (hlt : did < S.fresh)
    (hback : ∃ u ∈ S.unplaced, u.id = did)
    (hnb : ∀ bi ∈ S.body, bi.id ≠ did)
    (hud : ∀ u ∈ S.unplaced, ∃ pk, u.op = Op.load (Val.const (Const.nullPtr pk))) :
    v ≠ d := by
  rcases hcl with h | ⟨nid, hfr, dk2, h⟩ | ⟨hdum, -⟩
  · intro hc
    rw [h, hshape] at hc
    simp [junkVal] at hc
  · intro hc
    rw [h, hshape] at hc
    obtain ⟨h1, -⟩ := Val.inst.inj hc
    omega
  · intro hc
    have htrue := isDummyValue_of_backed (getSCMEntryState S T) did (Typ.scalar dk)
      (by rw [getSCMEntryState_body]; exact hnb)
      (by rw [getSCMEntryState_unplaced]; exact hback)
      (by rw [getSCMEntryState_unplaced]; exact hud)
    rw [hc, hshape, htrue] at hdum
    exact Bool.true_eq_false.mp hdum

/-- A clean lane value can never be an already-resolved placeholder: it is
junk, has a fresh id, or was already stored in the target's lanes, where
resolved placeholders never sit. -/
theorem cleanLane_ne_done (S : PassState) (T v d : Val) (did dk : Nat)
    (hcl : cleanLane S (getSCMEntryState S T) T v)
    (hshape : d = Val.inst did (Typ.scalar dk)) (hlt : did < S.fresh)
    (hscm : some d ∉ scmLanesOf S T) :
    v ≠ d := by
  rcases hcl with h | ⟨nid, hfr, dk2, h⟩ | ⟨-, hmem⟩
  · intro hc
    rw [h, hshape] at hc
    simp [junkVal] at hc
  · intro hc
    rw [h, hshape] at hc
    obtain ⟨h1, -⟩ := Val.inst.inj hc
    omega
  · intro hc
    rw [hc] at hmem
    exact hscm hmem

/-- Reduction of one DRL-resolution iteration to a connection step over a
state whose body only gained fresh extractions, whose unplaced set and
other SCM keys are untouched, and whose target lanes within the vector
width are clean. -/
theorem resolveDRLEntry_spec (S : PassState) (cur : DRLEntry) (vid k w : Nat)
    (htgt : cur.unresolvedInst = Val.inst vid (Typ.vector k w)) :
    ∃ st2 e2,
      resolveDRLEntry S cur = drlConnect st2 cur.dummyVals e2 w ∧
      st2.unplaced = S.unplaced ∧
      S.fresh ≤ st2.fresh ∧
      (∀ bi ∈ st2.body,
        bi ∈ S.body ∨
          (S.fresh ≤ bi.id ∧ ∃ i, bi.op = Op.extractElem cur.unresolvedInst (i32Const i))) ∧
      (∀ i, i < w → cleanLane S (getSCMEntryState S cur.unresolvedInst) cur.unresolvedInst
          ((laneAt e2 i).getD junkVal)) ∧
      (∀ v, v ≠ cur.unresolvedInst →
        ∀ x, some x ∉ scmLanesOf S v → some x ∉ scmLanesOf st2 v) ∧
      (∀ x, some x ∈ scmLanesOf st2 cur.unresolvedInst →
        some x ∈ scmLanesOf S cur.unresolvedInst ∨
          cleanLane S (getSCMEntryState S cur.unresolvedInst) cur.unresolvedInst x) := by
  unfold resolveDRLEntry
  rw [htgt]
  dsimp only [widthOf]
  set st1 := getSCMEntryState S (Val.inst vid (Typ.vector k w)) with hst1
  set e1 := (lookupSCM st1.scm (Val.inst vid (Typ.vector k w))).getD
      (⟨[none], false⟩ : SCMEntry) with he1
  obtain ⟨E1, hE1⟩ := Option.isSome_iff_exists.mp
    (lookupSCM_isSome_getSCMEntryState S (Val.inst vid (Typ.vector k w)))
  have he1E : e1 = E1 := by rw [he1, hE1]; rfl
  have hlanes1 : scmLanesOf st1 (Val.inst vid (Typ.vector k w)) = e1.scalarValues := by
    unfold scmLanesOf
    rw [hE1, he1E]
  have hkept : ∀ i, isDummyLane st1 (laneAt e1 i) = false →
      cleanLane S st1 (Val.inst vid (Typ.vector k w)) ((laneAt e1 i).getD junkVal) := by
    intro i hdum
    cases hla : laneAt e1 i with
    | none =>
        exact Or.inl rfl
    | some v =>
        rw [hla] at hdum
        refine Or.inr (Or.inr ⟨hdum, ?_⟩)
        apply lanes_st1_to_S
        rw [← hst1]
        rw [hlanes1]
        exact laneAt_mem e1 i v hla
  by_cases hcond : (!entryResolved e1 ||
      (entryResolved e1 &&
        (List.range w).any (fun i => isDummyLane st1 (laneAt e1 i)))) = true
  · -- re-scalarization runs
    rw [if_pos hcond]
    rw [drlFixup_eq]
    obtain ⟨⟨hscm, hunp, hfr⟩, hbody, hlenF, hlane⟩ :=
      fixFold_facts st1 (Val.inst vid (Typ.vector k w)) (Typ.vector k w) e1
        (entryResolved e1) (nextLocAfter st1.body vid)
        (bbOfLoc st1.body (nextLocAfter st1.body vid)) (List.range w) (st1, [])
    set FF := (List.range w).foldl
      (fixStep st1 (Val.inst vid (Typ.vector k w)) (Typ.vector k w) e1
        (entryResolved e1) (nextLocAfter st1.body vid)
        (bbOfLoc st1.body (nextLocAfter st1.body vid))) (st1, []) with hFF
    have hlen2 : FF.2.length = w := by
      rw [hlenF]
      simp
    have hcleanv : ∀ v ∈ FF.2, cleanLane S st1 (Val.inst vid (Typ.vector k w)) v := by
      intro v hv
      rcases hlane v hv with hnil | ⟨nid, hnid, dk, hsh⟩ | ⟨i, -, hdum, hv2⟩
      · exact absurd hnil (List.not_mem_nil _)
      · refine Or.inr (Or.inl ⟨nid, ?_, dk, hsh⟩)
        rw [← getSCMEntryState_fresh S (Val.inst vid (Typ.vector k w)), ← hst1]
        exact hnid
      · rw [hv2]
        exact hkept i hdum
    have hE2 : lookupSCM (scmUpdate FF.1 (Val.inst vid (Typ.vector k w)) FF.2 false).scm
        (Val.inst vid (Typ.vector k w)) =
        some ⟨(List.range w).map (fun i => some (FF.2.getD i junkVal)), false⟩ := by
      unfold scmUpdate
      dsimp only
      rw [lookupSCM_setSCM_self _ _ _ (by rw [hscm]; rw [hE1]; rfl)]
      rfl
    refine ⟨_, _, rfl, ?_, ?_, ?_, ?_, ?_, ?_⟩
    · rw [scmUpdate_unplaced, hunp]
      rw [hst1]
      exact getSCMEntryState_unplaced S _
    · rw [scmUpdate_fresh]
      have h1 : S.fresh = st1.fresh := by
        rw [hst1, getSCMEntryState_fresh]
      rw [h1]
      exact hfr
    · intro bi hbi
      rw [scmUpdate_body] at hbi
      rcases hbody bi hbi with hmem | ⟨hid, i, hop⟩
      · left
        rw [hst1, getSCMEntryState_body] at hmem
        exact hmem
      · right
        refine ⟨?_, i, hop⟩
        rw [show S.fresh = st1.fresh from by rw [hst1, getSCMEntryState_fresh]]
        exact hid
    · intro i hiw
      have hl2 : laneAt ((lookupSCM
            (scmUpdate FF.1 (Val.inst vid (Typ.vector k w)) FF.2 false).scm
            (Val.inst vid (Typ.vector k w))).getD ⟨[none], false⟩) i =
          some (FF.2.getD i junkVal) := by
        rw [hE2]
        unfold laneAt
        exact rangeMap_getD _ _ _ _ hiw
      rw [hl2]
      exact hcleanv (FF.2.getD i junkVal) (getD_mem_of_lt _ i _ (by rw [hlen2]; exact hiw))
    · intro v hv x hx
      unfold scmLanesOf
      unfold scmUpdate
      dsimp only
      rw [lookupSCM_setSCM_other _ _ _ _ hv, hscm]
      rw [show lookupSCM st1.scm v = lookupSCM S.scm v from by
        rw [hst1]; exact lookupSCM_getSCMEntryState_other S _ v hv]
      exact hx
    · intro x hx
      right
      unfold scmLanesOf at hx
      rw [hE2] at hx
      dsimp only at hx
      rw [List.mem_map] at hx
      obtain ⟨i, hi, hEq⟩ := hx
      have hx2 : x = FF.2.getD i junkVal := by
        have := Option.some.inj hEq
        rw [this]
      rw [hx2]
      exact hcleanv _ (getD_mem_of_lt _ i _ (by rw [hlen2]; exact List.mem_range.mp hi))
  · -- entry already resolved with no placeholder lanes
    rw [if_neg hcond]
    have hnodum : ∀ i, i < w → isDummyLane st1 (laneAt e1 i) = false := by
      rcases Bool.not_eq_true _ ▸ hcond with h
      simp at h
      exact h.2 h.1
    refine ⟨st1, e1, rfl, ?_, ?_, ?_, ?_, ?_, ?_⟩
    · rw [hst1]
      exact getSCMEntryState_unplaced S _
    · rw [hst1, getSCMEntryState_fresh]
    · intro bi hbi
      left
      rw [hst1, getSCMEntryState_body] at hbi
      exact hbi
    · intro i hiw
      exact hkept i (hnodum i hiw)
    · intro v hv x hx
      unfold scmLanesOf
      rw [show lookupSCM st1.scm v = lookupSCM S.scm v from by
        rw [hst1]; exact lookupSCM_getSCMEntryState_other S _ v hv]
      exact hx
    · intro x hx
      left
      apply lanes_st1_to_S
      rw [← hst1]
      exact hx


/-- One DRL-resolution iteration maintains the resolution invariant,
moving the processed entry's placeholders into the resolved set. -/
theorem resolve_step (S : PassState) (e : DRLEntry) (rest : List DRLEntry)
    (done : List Val) (inv : ResInv S (e :: rest) done) :
    ResInv (resolveDRLEntry S e) rest (done ++ e.dummyVals) := by
  obtain ⟨vid, k, w, htgt, hlen⟩ := inv.targets e (List.mem_cons_self _ _)
  obtain ⟨st2, e2, hre, hunp2, hfr2, hbody2, hclean, hpres, htlanes⟩ :=
    resolveDRLEntry_spec S e vid k w htgt
  rw [hre, drlConnect_eq]
  obtain ⟨hAscm, hAfresh, hAunp, hAbody⟩ :=
    conFold_fields e.dummyVals e2 (List.range w) st2
  have hpendD : ∀ d ∈ e.dummyVals, d ∈ (e :: rest).flatMap (fun x => x.dummyVals) := by
    intro d hd
    rw [List.flatMap_cons]
    exact List.mem_append.mpr (Or.inl hd)
  have hrestD : ∀ d ∈ rest.flatMap (fun x => x.dummyVals),
      d ∈ (e :: rest).flatMap (fun x => x.dummyVals) := by
    intro d hd
    rw [List.flatMap_cons]
    exact List.mem_append.mpr (Or.inr hd)
  have hdisj : ∀ a ∈ e.dummyVals, ∀ b ∈ rest.flatMap (fun x => x.dummyVals),
      valId a ≠ valId b := by
    have hnd := inv.pd_nodup
    rw [List.flatMap_cons, List.map_append] at hnd
    obtain ⟨-, -, hdj⟩ := List.nodup_append.mp hnd
    intro a ha b hb hc
    exact hdj (List.mem_map.mpr ⟨a, ha, rfl⟩)
      (by rw [hc]; exact List.mem_map.mpr ⟨b, hb, rfl⟩)
  have hlane_ne_pend : ∀ d ∈ (e :: rest).flatMap (fun x => x.dummyVals),
      ∀ i ∈ List.range w, (laneAt e2 i).getD junkVal ≠ d := by
    intro d hd i hi
    obtain ⟨did, dk, hsh, hlt⟩ := inv.pend_shape d hd
    have hb := inv.pend_backed d hd
    rw [hsh] at hb
    simp only [valId] at hb
    have hnb := inv.pend_not_body d hd
    rw [hsh] at hnb
    simp only [valId] at hnb
    exact cleanLane_ne_pending S e.unresolvedInst _ d did dk
      (hclean i (List.mem_range.mp hi)) hsh hlt hb hnb inv.unplaced_dummy
  have hlane_ne_done : ∀ d ∈ done, ∀ i ∈ List.range w,
      (laneAt e2 i).getD junkVal ≠ d := by
    intro d hd i hi
    obtain ⟨did, dk, hsh, hlt⟩ := inv.done_shape d hd
    exact cleanLane_ne_done S e.unresolvedInst _ d did dk
      (hclean i (List.mem_range.mp hi)) hsh hlt
      (inv.done_scm d hd e (List.mem_cons_self _ _))
  have hidx : ∀ d ∈ e.dummyVals, ∃ i0 ∈ List.range w,
      e.dummyVals.getD i0 junkVal = d := by
    intro d hd
    obtain ⟨i0, hi0, hEq⟩ := exists_getD_of_mem e.dummyVals d junkVal hd
    exact ⟨i0, List.mem_range.mpr (by rw [← hlen]; exact hi0), hEq⟩
  have hAunpS : ∀ u ∈ ((List.range w).foldl (conStep e.dummyVals e2) st2).unplaced, u ∈ S.unplaced := by
    intro u hu
    have h2 := hAunp u hu
    rw [hunp2] at h2
    exact h2
  have hAfreshS : S.fresh ≤ ((List.range w).foldl (conStep e.dummyVals e2) st2).fresh := by
    rw [hAfresh]
    exact hfr2
  have hscm_done : ∀ d ∈ done ++ e.dummyVals, ∀ er ∈ rest,
      some d ∉ scmLanesOf st2 er.unresolvedInst := by
    intro d hd er her
    have hbase : some d ∉ scmLanesOf S er.unresolvedInst := by
      rcases List.mem_append.mp hd with hdone | hed
      · exact inv.done_scm d hdone er (List.mem_cons_of_mem _ her)
      · obtain ⟨idx, hidxl, hEr⟩ := List.mem_iff_getElem.mp her
        have hord := inv.ordered (idx + 1) 0 (Nat.zero_le _)
          (by simp only [List.length_cons]; omega) d
          (by rw [show ((e :: rest).getD 0 ⟨junkVal, []⟩) = e from rfl]; exact hed)
        rw [getD_cons_succ_eq] at hord
        rw [show rest.getD idx ⟨junkVal, []⟩ = er from by
          rw [List.getD_eq_getElem?_getD, List.getElem?_eq_getElem hidxl]
          exact hEr] at hord
        exact hord
    by_cases hte : er.unresolvedInst = e.unresolvedInst
    · rw [hte]
      rw [hte] at hbase
      intro hmem
      rcases htlanes d hmem with hS | hcl
      · exact hbase hS
      · rcases List.mem_append.mp hd with hdone | hed
        · obtain ⟨did, dk, hsh, hlt⟩ := inv.done_shape d hdone
          exact cleanLane_ne_done S e.unresolvedInst d d did dk hcl hsh hlt
            (inv.done_scm d hdone e (List.mem_cons_self _ _)) rfl
        · obtain ⟨did, dk, hsh, hlt⟩ := inv.pend_shape d (hpendD d hed)
          have hb := inv.pend_backed d (hpendD d hed)
          rw [hsh] at hb
          simp only [valId] at hb
          have hnb := inv.pend_not_body d (hpendD d hed)
          rw [hsh] at hnb
          simp only [valId] at hnb
          exact cleanLane_ne_pending S e.unresolvedInst d d did dk hcl hsh hlt
            hb hnb inv.unplaced_dummy rfl
    · exact hpres er.unresolvedInst hte d hbase
  have hscm_rest : ∀ i j, j ≤ i → i < rest.length →
      ∀ d ∈ (rest.getD j ⟨junkVal, []⟩).dummyVals,
        some d ∉ scmLanesOf st2 ((rest.getD i ⟨junkVal, []⟩).unresolvedInst) := by
    intro i j hji hilen d hd
    have hdflat : d ∈ rest.flatMap (fun x => x.dummyVals) :=
      List.mem_flatMap.mpr ⟨rest.getD j ⟨junkVal, []⟩,
        getD_mem_of_lt _ j _ (by omega), hd⟩
    have hbase := inv.ordered (i + 1) (j + 1) (by omega)
      (by simp only [List.length_cons]; omega) d
      (by rw [getD_cons_succ_eq]; exact hd)
    rw [getD_cons_succ_eq] at hbase
    by_cases hte : (rest.getD i ⟨junkVal, []⟩).unresolvedInst = e.unresolvedInst
    · rw [hte]
      rw [hte] at hbase
      intro hmem
      rcases htlanes d hmem with hS | hcl
      · exact hbase hS
      · obtain ⟨did, dk, hsh, hlt⟩ := inv.pend_shape d (hrestD d hdflat)
        have hb := inv.pend_backed d (hrestD d hdflat)
        rw [hsh] at hb
        simp only [valId] at hb
        have hnb := inv.pend_not_body d (hrestD d hdflat)
        rw [hsh] at hnb
        simp only [valId] at hnb
        exact cleanLane_ne_pending S e.unresolvedInst d d did dk hcl hsh hlt
          hb hnb inv.unplaced_dummy rfl
    · exact hpres _ hte d hbase
  refine ⟨?_, ?_, ?_, ?_, ?_, ?_, ?_, ?_, ?_, ?_, ?_, ?_, ?_⟩
  · intro er her
    exact inv.targets er (List.mem_cons_of_mem _ her)
  · intro u hu
    exact inv.unplaced_dummy u (hAunpS u hu)
  · intro d hd
    obtain ⟨did, dk, hsh, hlt⟩ := inv.pend_shape d (hrestD d hd)
    exact ⟨did, dk, hsh, by omega⟩
  · intro d hd
    obtain ⟨u, hu, hid⟩ := inv.pend_backed d (hrestD d hd)
    refine ⟨u, ?_, hid⟩
    apply conFold_unplaced_survive
    · rw [hunp2]
      exact hu
    · intro i hi did t hEq hcid
      have hdm : e.dummyVals.getD i junkVal ∈ e.dummyVals :=
        getD_mem_of_lt _ i _ (by rw [hlen]; exact List.mem_range.mp hi)
      have hdd := hdisj _ hdm d hd
      rw [hEq] at hdd
      simp only [valId] at hdd
      rw [hid] at hcid
      exact hdd hcid.symm
  · intro d hd bi hbi
    obtain ⟨did, dk, hsh, hlt⟩ := inv.pend_shape d (hrestD d hd)
    rw [hsh]
    simp only [valId]
    obtain ⟨y, hy, hid⟩ := hAbody bi hbi
    rcases hbody2 y hy with h | ⟨h, -⟩
    · have h2 := inv.pend_not_body d (hrestD d hd) y h
      rw [hsh] at h2
      simp only [valId] at h2
      rw [hid]
      exact h2
    · rw [hid]
      omega
  · have hnd := inv.pd_nodup
    rw [List.flatMap_cons, List.map_append] at hnd
    exact (List.nodup_append.mp hnd).2.1
  · intro d hd d2 hd2
    rcases List.mem_append.mp hd2 with hdone | hed
    · exact inv.pd_done_disj d (hrestD d hd) d2 hdone
    · exact (hdisj d2 hed d hd).symm
  · intro d hd
    rcases List.mem_append.mp hd with hdone | hed
    · obtain ⟨did, dk, hsh, hlt⟩ := inv.done_shape d hdone
      exact ⟨did, dk, hsh, by omega⟩
    · obtain ⟨did, dk, hsh, hlt⟩ := inv.pend_shape d (hpendD d hed)
      exact ⟨did, dk, hsh, by omega⟩
  · intro d hd
    rcases List.mem_append.mp hd with hdone | hed
    · apply conFold_preserve_not_used
      · exact hlane_ne_done d hdone
      · rintro ⟨bi, hbi, hop⟩
        rcases hbody2 bi hbi with h | ⟨-, i, hopEE⟩
        · exact inv.done_clean d hdone ⟨bi, h, hop⟩
        · rw [hopEE] at hop
          simp [opVals] at hop
          obtain ⟨did, dk, hsh, -⟩ := inv.done_shape d hdone
          rcases hop with h2 | h2
          · rw [hsh, htgt] at h2
            simp at h2
          · rw [hsh] at h2
            simp [i32Const] at h2
    · apply conFold_kill_used
      · exact hlane_ne_pend d (hpendD d hed)
      · exact hidx d hed
  · intro d hd u hu
    rcases List.mem_append.mp hd with hdone | hed
    · exact inv.done_unplaced d hdone u (hAunpS u hu)
    · obtain ⟨did, dk, hsh, -⟩ := inv.pend_shape d (hpendD d hed)
      rw [hsh]
      simp only [valId]
      obtain ⟨i0, hi0, hEq⟩ := hidx d hed
      exact conFold_unplaced_kill e.dummyVals e2 did (List.range w) st2
        ⟨i0, hi0, Typ.scalar dk, by rw [hEq]; exact hsh⟩ u hu
  · intro d hd bi hbi
    obtain ⟨y, hy, hid⟩ := hAbody bi hbi
    rcases List.mem_append.mp hd with hdone | hed
    · obtain ⟨did, dk, hsh, hlt⟩ := inv.done_shape d hdone
      rw [hsh]
      simp only [valId]
      rcases hbody2 y hy with h | ⟨h, -⟩
      · have h2 := inv.done_not_body d hdone y h
        rw [hsh] at h2
        simp only [valId] at h2
        rw [hid]
        exact h2
      · rw [hid]
        omega
    · obtain ⟨did, dk, hsh, hlt⟩ := inv.pend_shape d (hpendD d hed)
      rw [hsh]
      simp only [valId]
      rcases hbody2 y hy with h | ⟨h, -⟩
      · have h2 := inv.pend_not_body d (hpendD d hed) y h
        rw [hsh] at h2
        simp only [valId] at h2
        rw [hid]
        exact h2
      · rw [hid]
        omega
  · intro d hd er her
    rw [scmLanesOf_congr ((List.range w).foldl (conStep e.dummyVals e2) st2) st2 er.unresolvedInst hAscm]
    exact hscm_done d hd er her
  · intro i j hji hilen d hd
    rw [scmLanesOf_congr ((List.range w).foldl (conStep e.dummyVals e2) st2) st2 _ hAscm]
    exact hscm_rest i j hji hilen d hd

/-- The DRL-resolution fold eliminates every placeholder: after it, no
placeholder of any pending entry (nor any already resolved one) is used by
a body instruction or backs an unplaced instruction. -/
theorem resolve_fold_closure :
    ∀ (pending : List DRLEntry) (done : List Val) (S : PassState),
      ResInv S pending done →
      ∀ d ∈ pending.flatMap (fun x => x.dummyVals) ++ done,
        ¬ usedInBody (pending.foldl resolveDRLEntry S).body d ∧
        ∀ u ∈ (pending.foldl resolveDRLEntry S).unplaced, u.id ≠ valId d := by
  intro pending
  induction pending with
  | nil =>
      intro done S inv d hd
      rw [List.flatMap_nil, List.nil_append] at hd
      exact ⟨inv.done_clean d hd, inv.done_unplaced d hd⟩
  | cons e rest ih =>
      intro done S inv d hd
      rw [List.foldl_cons]
      have hstep := resolve_step S e rest done inv
      have hd2 : d ∈ rest.flatMap (fun x => x.dummyVals) ++ (done ++ e.dummyVals) := by
        rw [List.flatMap_cons] at hd
        simp only [List.mem_append] at hd ⊢
        tauto
      exact ih (done ++ e.dummyVals) (resolveDRLEntry S e) hstep d hd2


end Scalarizer
